import Mathlib

/-!
# Verification of the ARM resource-id tools
  (`sdk/core/azure-mgmt-core/azure/mgmt/core/tools.py`)

A shallow embedding of `parse_resource_id`, `resource_id`,
`is_valid_resource_id` and `is_valid_resource_name`, together with the two
regular expressions `_ARMID_RE`, `_CHILDREN_RE` and `_ARMNAME_RE` they apply.

Strings are modelled as `List Char`.  The two structural regular expressions
are simple enough that their (leftmost, greedy, backtracking) matching
semantics is rendered as deterministic recursive functions:

* `_ARMID_RE` = `(?i)/subscriptions/(?P<subscription>[^/]+)`
  `(/resourceGroups/(?P<resource_group>[^/]+))?`
  `(/providers/(?P<namespace>[^/]+)/(?P<type>[^/]*)/(?P<name>[^/]+)(?P<children>.*))?`
  applied with `re.match` (anchored at the start, not at the end).
  `[^/]+` / `[^/]*` are maximal runs of non-`/` characters (`seg`);
  `.*` is a maximal run of non-newline characters (Python `.` does not
  match `\n`); the case-insensitive literals are matched by `stripCI`.
  Since everything after `subscription` is a chain of optional groups, the
  greedy backtracking search degenerates to: try each optional group at the
  current position, commit iff its interior matches (`matchRoot`).

* `_CHILDREN_RE` = `(?i)(/providers/(?P<child_namespace>[^/]+))?/`
  `(?P<child_type>[^/]*)/(?P<child_name>[^/]+)` applied with `finditer`:
  at each position try the providers-branch first and fall back to the
  plain branch (`matchChildAt`); on failure advance one character, on
  success continue after the match (`findChildrenF`, fuelled).

The python dict produced by `parse_resource_id` is modelled as an
association list over an explicit key type `Key` (the dict's keys are
exactly the names `subscription`, `resource_group`, …, `child_type_{i}`, …,
rendered here with the index as a constructor argument), in the insertion
order of the source; `None`-valued entries, which the source drops in its
final dict comprehension, are never inserted.

`resource_id`'s `KeyError`-as-control-flow is modelled with `Option`:
`none` is the propagated `KeyError` for a missing `subscription`, and the
caught `KeyError`s of the inner `try` blocks become `Option` matches that
stop the accumulation.  The dual-mode validators (`exception_type`
argument) are modelled by a second function returning `Except Unit Bool`.
-/

/-- Characters of a string literal. -/
def chars (s : String) : List Char := s.data

/-- ASCII lower-casing of one character, as case-insensitive regex matching
and Python's `str.lower()` act on the ASCII identifiers involved here. -/
def lc (c : Char) : Char :=
  if 65 ≤ c.toNat ∧ c.toNat ≤ 90 then Char.ofNat (c.toNat + 32) else c

/-- ASCII lower-casing of a string. -/
def lstr (s : List Char) : List Char := s.map lc

/-- Maximal run of non-`/` characters (`[^/]*` / `[^/]+`). -/
def seg (cs : List Char) : List Char := cs.takeWhile (fun c => c ≠ '/')

/-- What remains after `seg`. -/
def segRest (cs : List Char) : List Char := cs.dropWhile (fun c => c ≠ '/')

/-- Case-insensitive literal matching: strip `p` (case-insensitively) from
the front of `cs`, returning the rest. -/
def stripCI : List Char → List Char → Option (List Char)
  | [], cs => some cs
  | _ :: _, [] => none
  | p :: ps, c :: cs => if lc c = lc p then stripCI ps cs else none

/-- One match of `_CHILDREN_RE` (`child_namespace` optional). -/
structure ChildSeg where
  nspace : Option (List Char)
  ty : List Char
  nm : List Char
deriving DecidableEq, Repr

/-- The providers group of `_ARMID_RE` (`namespace`, `type`, `name`,
`children`). -/
structure ProvPart where
  nspace : List Char
  ty : List Char
  nm : List Char
  children : List Char
deriving DecidableEq, Repr

/-- A match of `_ARMID_RE`: the captured groups plus the unconsumed rest of
the input (the pattern is only anchored at the start). -/
structure RootMatch where
  subscription : List Char
  resourceGroup : Option (List Char)
  provider : Option ProvPart
  rest : List Char
deriving DecidableEq, Repr

/-- The plain branch of `_CHILDREN_RE`:
`/(?P<child_type>[^/]*)/(?P<child_name>[^/]+)` at the current position. -/
def matchChildPlain (cs : List Char) : Option (ChildSeg × List Char) :=
  match cs with
  | '/' :: r1 =>
    match segRest r1 with
    | '/' :: r2 =>
      if seg r2 = [] then none else some (⟨none, seg r1, seg r2⟩, segRest r2)
    | _ => none
  | _ => none

/-- A match of `_CHILDREN_RE` at the current position: the providers branch
is tried first (greedy optional group); if its interior fails the engine
backtracks to the plain branch. -/
def matchChildAt (cs : List Char) : Option (ChildSeg × List Char) :=
  match stripCI (chars "/providers/") cs with
  | some r1 =>
    if seg r1 = [] then matchChildPlain cs
    else
      match matchChildPlain (segRest r1) with
      | some (c, r) => some ({ c with nspace := some (seg r1) }, r)
      | none => matchChildPlain cs
  | none => matchChildPlain cs

/-- `finditer` of `_CHILDREN_RE`: scan left to right, yielding
non-overlapping matches; on failure advance one character (fuelled: every
match consumes at least one character, so `cs.length + 1` fuel suffices). -/
def findChildrenF : Nat → List Char → List ChildSeg
  | 0, _ => []
  | _ + 1, [] => []
  | fuel + 1, c :: rest =>
    match matchChildAt (c :: rest) with
    | some (child, r) => child :: findChildrenF fuel r
    | none => findChildrenF fuel rest

/-- All matches of `_CHILDREN_RE` in the children remainder. -/
def findChildren (cs : List Char) : List ChildSeg :=
  findChildrenF (cs.length + 1) cs

/-- Whether the matches of `_CHILDREN_RE` are contiguous from the start of
the string and consume it entirely (no character is skipped). -/
def coverF : Nat → List Char → Bool
  | 0, _ => false
  | _ + 1, [] => true
  | fuel + 1, c :: rest =>
    match matchChildAt (c :: rest) with
    | some (_, r) => coverF fuel r
    | none => false

/-- `coverF` with enough fuel. -/
def cover (cs : List Char) : Bool := coverF (cs.length + 1) cs

/-- The optional `(/resourceGroups/(?P<resource_group>[^/]+))?` group. -/
def matchRG (cs : List Char) : Option (List Char × List Char) :=
  match stripCI (chars "/resourceGroups/") cs with
  | some r => if seg r = [] then none else some (seg r, segRest r)
  | none => none

/-- The optional
`(/providers/(?P<namespace>[^/]+)/(?P<type>[^/]*)/(?P<name>[^/]+)(?P<children>.*))?`
group.  `.*` (`children`) stops at a newline; the input past it is left
unconsumed. -/
def matchProv (cs : List Char) : Option (ProvPart × List Char) :=
  match stripCI (chars "/providers/") cs with
  | some r1 =>
    if seg r1 = [] then none
    else
      match segRest r1 with
      | '/' :: r2 =>
        match segRest r2 with
        | '/' :: r3 =>
          if seg r3 = [] then none
          else
            some (⟨seg r1, seg r2, seg r3,
                   (segRest r3).takeWhile (fun c => c ≠ '\n')⟩,
                  (segRest r3).dropWhile (fun c => c ≠ '\n'))
        | _ => none
      | _ => none
  | none => none

/-- `_ARMID_RE.match`: anchored at the start; `subscription` mandatory, the
other groups optional and tried greedily in order. -/
def matchRoot (cs : List Char) : Option RootMatch :=
  match stripCI (chars "/subscriptions/") cs with
  | some r =>
    if seg r = [] then none
    else
      match matchRG (segRest r) with
      | some (g, r3) =>
        match matchProv r3 with
        | some (p, r4) => some ⟨seg r, some g, some p, r4⟩
        | none => some ⟨seg r, some g, none, r3⟩
      | none =>
        match matchProv (segRest r) with
        | some (p, r4) => some ⟨seg r, none, some p, r4⟩
        | none => some ⟨seg r, none, none, segRest r⟩
  | none => none

/-- Whether `_ARMID_RE` together with the `_CHILDREN_RE` matches inside the
`children` capture consumes the whole input with nothing skipped. -/
def fullMatch (cs : List Char) : Bool :=
  match matchRoot cs with
  | none => false
  | some r =>
    r.rest = [] &&
      (match r.provider with
       | none => true
       | some p => cover p.children)

/-- The keys of the mapping built by `parse_resource_id` (the python dict
keys `"subscription"`, …, `"child_type_{i}"`, … with the level index as an
argument). -/
inductive Key where
  | subscription
  | resource_group
  | nspace
  | ty
  | nm
  | children
  | child_nspace (i : Nat)
  | child_ty (i : Nat)
  | child_nm (i : Nat)
  | last_child_num
  | child_parent (i : Nat)
  | resource_parent
  | resource_namespace
  | resource_type
  | resource_nm
deriving DecidableEq, Repr

/-- A value of the mapping: a string, or the integer `last_child_num`. -/
inductive Val where
  | s (v : List Char)
  | n (v : Nat)
deriving DecidableEq, Repr

/-- The mapping, in python-dict insertion order. -/
abbrev Dict := List (Key × Val)

/-- Dict lookup. -/
def lookupD : Dict → Key → Option Val
  | [], _ => none
  | (k', v) :: d, k => if k' = k then some v else lookupD d k

/-- Remove a key from the mapping. -/
def eraseKey (d : Dict) (k : Key) : Dict :=
  match d with
  | [] => []
  | (k', v) :: d => if k' = k then eraseKey d k else (k', v) :: eraseKey d k

/-- A present-or-absent entry (python: a key whose `None` value is dropped
by the final dict comprehension). -/
def optEntry (k : Key) : Option (List Char) → Dict
  | some v => [(k, Val.s v)]
  | none => []

/-- The segment `"providers/{child_namespace}/"` appended by
`_get_parents_from_parts` when the level has a namespace. -/
def provSeg : Option (List Char) → List Char
  | some ns => chars "providers/" ++ ns ++ ['/']
  | none => []

/-- The segment `"{child_type_i}/{child_name_i}/"` appended by
`_get_parents_from_parts`. -/
def tnSeg (c : ChildSeg) : List Char := c.ty ++ '/' :: c.nm ++ ['/']

/-- The accumulator loop of `_get_parents_from_parts`: given the current
accumulator and the (non-empty, when called) list of children, return the
recorded `child_parent_i` values in order and the final accumulator.  For
every level the optional providers segment is appended first, then the
accumulator is recorded, then (except at the last level) the type/name
segment is appended. -/
def childParents : List Char → List ChildSeg → List (List Char) × List Char
  | acc, [] => ([], acc)
  | acc, [c] =>
    let a := acc ++ provSeg c.nspace
    ([a], a)
  | acc, c :: c' :: cs =>
    let a := acc ++ provSeg c.nspace
    let r := childParents (a ++ tnSeg c) (c' :: cs)
    (a :: r.1, r.2)

/-- The `child_namespace_i`, `child_type_i`, `child_name_i` entries, from
index `i` on, in the order `result.update` inserts them. -/
def childGroupEntries : Nat → List ChildSeg → Dict
  | _, [] => []
  | i, c :: cs =>
    optEntry (.child_nspace i) c.nspace
      ++ [(.child_ty i, .s c.ty), (.child_nm i, .s c.nm)]
      ++ childGroupEntries (i + 1) cs

/-- The `child_parent_i` entries, from index `i` on. -/
def childParentEntries : Nat → List (List Char) → Dict
  | _, [] => []
  | i, p :: ps => (.child_parent i, .s p) :: childParentEntries (i + 1) ps

/-- `resource_type` (`_populate_alternate_kwargs`): the last child's type
`or` the root type — python's `or` falls back when the child type is the
empty string. -/
def resTy (p : ProvPart) (children : List ChildSeg) : List Char :=
  match children.getLast? with
  | some c => if c.ty = [] then p.ty else c.ty
  | none => p.ty

/-- `resource_name` (`_populate_alternate_kwargs`): the last child's name
`or` the root name. -/
def resNm (p : ProvPart) (children : List ChildSeg) : List Char :=
  match children.getLast? with
  | some c => if c.nm = [] then p.nm else c.nm
  | none => p.nm

/-- The dict built from a root match and its list of child matches:
`groupdict()` of the root pattern, the `child_*_{i}` updates,
`last_child_num`, then the entries added by `_get_parents_from_parts` and
`_populate_alternate_kwargs`, each key in the source's insertion order,
`None`-valued keys dropped. -/
def mkDictC (r : RootMatch) (children : List ChildSeg) : Dict :=
  [(.subscription, .s r.subscription)]
    ++ optEntry .resource_group r.resourceGroup
    ++ (match r.provider with
        | some p =>
          [(.nspace, .s p.nspace), (.ty, .s p.ty), (.nm, .s p.nm),
           (.children, .s p.children)]
        | none => [])
    ++ childGroupEntries 1 children
    ++ (if children.length = 0 then []
        else [(.last_child_num, .n children.length)])
    ++ (match r.provider with
        | some p =>
          childParentEntries 1
              (childParents (p.ty ++ '/' :: p.nm ++ ['/']) children).1
            ++ [(.resource_parent, .s (if children.length = 0 then []
                   else (childParents (p.ty ++ '/' :: p.nm ++ ['/']) children).2)),
                (.resource_namespace, .s p.nspace),
                (.resource_type, .s (resTy p children)),
                (.resource_nm, .s (resNm p children))]
        | none => [])

/-- The dict built from a root match (the children are the matches of
`_CHILDREN_RE` inside the raw `children` capture). -/
def mkDict (r : RootMatch) : Dict :=
  mkDictC r
    (match r.provider with
     | some p => findChildren p.children
     | none => [])

/-- `parse_resource_id`: empty input gives the empty dict; a failed root
match gives the single-entry fallback `{"name": rid}`; otherwise the dict of
the match. -/
def parse_resource_id (x : List Char) : Dict :=
  match x with
  | [] => []
  | _ :: _ =>
    match matchRoot x with
    | some r => mkDict r
    | none => [(.nm, .s x)]

/-- How a value renders in `str.format` (`last_child_num` is an `int`). -/
def valStr : Val → List Char
  | .s v => v
  | .n k => Nat.toDigits 10 k

/-- Lookup a key and render its value as `str.format` would. -/
def lookupFmt (d : Dict) (k : Key) : Option (List Char) :=
  (lookupD d k).map valStr

/-- The child loop of `resource_id`: from level `i`, append
`providers/{child_namespace_i}` when present (its `KeyError` is caught and
ignored), then `{child_type_i}/{child_name_i}`; a `KeyError` there ends the
loop, keeping what was already appended.  Fuelled; the loop stops at the
first level whose type or name key is missing, so `d.length + 1` fuel
suffices. -/
def buildChildren (d : Dict) : Nat → Nat → List (List Char)
  | 0, _ => []
  | fuel + 1, i =>
    (match lookupFmt d (.child_nspace i) with
     | some v => [chars "providers/" ++ v]
     | none => []) ++
      (match lookupFmt d (.child_ty i), lookupFmt d (.child_nm i) with
       | some t, some n => (t ++ '/' :: n) :: buildChildren d fuel (i + 1)
       | _, _ => [])

/-- `"/".join`. -/
def joinSlash : List (List Char) → List Char
  | [] => []
  | a :: rest => a ++ (rest.map (fun s => '/' :: s)).flatten

/-- `resource_id` (build): `none` models the `KeyError` propagated for a
missing `subscription`; every other missing key is caught and truncates the
build. -/
def resource_id (d : Dict) : Option (List Char) :=
  match lookupFmt d .subscription with
  | none => none
  | some s =>
    some (joinSlash ((chars "/subscriptions/" ++ s) ::
      ((match lookupFmt d .resource_group with
        | some g => [chars "resourceGroups/" ++ g]
        | none => []) ++
       (match lookupFmt d .nspace with
        | none => []
        | some ns =>
          (chars "providers/" ++ ns) ::
            (match lookupFmt d .ty, lookupFmt d .nm with
             | some t, some n => (t ++ '/' :: n) :: buildChildren d (d.length + 1) 1
             | _, _ => [])))))

/-- `is_valid_resource_id` without an `exception_type`: non-empty input
whose parse rebuilds to the same string case-insensitively; the `KeyError`
of a fallback parse is caught and yields `False`. -/
def is_valid_resource_id (rid : List Char) : Bool :=
  match rid with
  | [] => false
  | _ :: _ =>
    match resource_id (parse_resource_id rid) with
    | some s => lstr s = lstr rid
    | none => false

/-- `is_valid_resource_id` with an `exception_type`: an invalid id raises
(the caller's exception type is opaque, modelled as `Unit`). -/
def is_valid_resource_id_exc (rid : List Char) : Except Unit Bool :=
  match rid with
  | [] => .error ()
  | _ :: _ =>
    match resource_id (parse_resource_id rid) with
    | some s => if lstr s = lstr rid then .ok true else .error ()
    | none => .error ()

/-- The character class `[^<>%&:\?/]` of `_ARMNAME_RE`. -/
def allowedChar (c : Char) : Bool :=
  ¬ (c = '<' ∨ c = '>' ∨ c = '%' ∨ c = '&' ∨ c = ':' ∨ c = '?' ∨ c = '/')

/-- Whether `$` matches at offset `k` of the string: at the end, or just
before a newline that ends the string (Python `re` semantics for `$`). -/
def dollarAt (s : List Char) (k : Nat) : Bool :=
  k = s.length ∨ (k + 1 = s.length ∧ s.getLast? = some '\n')

/-- `_ARMNAME_RE.match`, i.e. `^[^<>%&:\?/]{1,260}$`: some run of 1 to 260
allowed characters from the start ends at a position where `$` matches. -/
def armNameOk (s : List Char) : Bool :=
  (List.range 261).any fun k =>
    1 ≤ k && k ≤ s.length && (s.take k).all allowedChar && dollarAt s k

/-- `is_valid_resource_name` without an `exception_type`. -/
def is_valid_resource_name (rname : List Char) : Bool := armNameOk rname

/-- `is_valid_resource_name` with an `exception_type`: an invalid name
raises. -/
def is_valid_resource_name_exc (rname : List Char) : Except Unit Bool :=
  if armNameOk rname then .ok true else .error ()

/-! ## Specification-side definitions

Closed forms written from the spec's words, to be compared with the
functions above. -/

/-- A string with no `/`. -/
def NoSlash (cs : List Char) : Prop := ∀ c ∈ cs, c ≠ '/'

/-- A string with no newline. -/
def NoNl (cs : List Char) : Prop := ∀ c ∈ cs, c ≠ '\n'

/-- Well-formedness of a child match, as the child pattern guarantees it:
namespace and name non-empty runs of non-`/` characters, type a possibly
empty run. -/
def WfChild (c : ChildSeg) : Prop :=
  (∀ ns ∈ c.nspace, ns ≠ [] ∧ NoSlash ns) ∧ NoSlash c.ty ∧
    c.nm ≠ [] ∧ NoSlash c.nm

/-- The canonical text of one child level as the composer emits it:
`[/providers/{child_namespace}]/{child_type}/{child_name}`. -/
def childCanon (c : ChildSeg) : List Char :=
  (match c.nspace with
   | some ns => chars "/providers/" ++ ns
   | none => []) ++ '/' :: (c.ty ++ '/' :: c.nm)

/-- The lower-cased image of a child match. -/
def lstrCh (c : ChildSeg) : ChildSeg :=
  ⟨c.nspace.map lstr, lstr c.ty, lstr c.nm⟩

/-- The canonical text of a list of child matches. -/
def childrenCanon (l : List ChildSeg) : List Char := (l.map childCanon).flatten

/-- The text a root match decomposes: the matched literals (in canonical
case), the captured groups, and the raw `children` capture. -/
def rawRoot (r : RootMatch) : List Char :=
  chars "/subscriptions/" ++ (r.subscription
    ++ ((match r.resourceGroup with
         | some g => chars "/resourceGroups/" ++ g
         | none => [])
      ++ (match r.provider with
          | some p =>
            chars "/providers/" ++ (p.nspace ++ '/' :: (p.ty ++ '/' :: (p.nm ++ p.children)))
          | none => [])))

/-- A root match with its `children` capture replaced by the canonical text
of its child matches, and its unconsumed rest dropped. -/
def canonize (r : RootMatch) : RootMatch :=
  { r with
    provider := r.provider.map fun p =>
      { p with children := childrenCanon (findChildren p.children) },
    rest := [] }

/-- The canonical identifier rebuilt from the groups of a root match: what
`resource_id` returns on the parsed mapping of a fully matched input. -/
def canonRoot (r : RootMatch) : List Char := rawRoot (canonize r)

/-- Well-formedness of the captured groups, as the root pattern guarantees
it. -/
def WfRoot (r : RootMatch) : Prop :=
  r.subscription ≠ [] ∧ NoSlash r.subscription ∧
    (∀ g ∈ r.resourceGroup, g ≠ [] ∧ NoSlash g) ∧
    (∀ p ∈ r.provider, p.nspace ≠ [] ∧ NoSlash p.nspace ∧ NoSlash p.ty ∧
      p.nm ≠ [] ∧ NoSlash p.nm ∧ NoNl p.children ∧
      (p.children = [] ∨ ∃ t, p.children = '/' :: t))

/-- The parent path of child level `i` (1-based) as the spec states it:
the root `{type}/{name}/`, then for every level before `i` its optional
`providers/{child_namespace}/` segment and its `{child_type}/{child_name}/`
segment, then level `i`'s own optional providers segment — the level's own
type/name segment excluded. -/
def specChildParent (p : ProvPart) (children : List ChildSeg) (i : Nat) :
    List Char :=
  p.ty ++ '/' :: p.nm ++ '/' ::
    (((children.take (i - 1)).map
        (fun c => provSeg c.nspace ++ tnSeg c)).flatten
      ++ provSeg ((children.get? (i - 1)).bind (·.nspace)))

/-- The segments the composer's child loop emits for a list of children:
per level an optional `providers/{child_namespace}` segment and a
`{child_type}/{child_name}` segment. -/
def childSegs : List ChildSeg → List (List Char)
  | [] => []
  | c :: cs =>
    (match c.nspace with
     | some ns => [chars "providers/" ++ ns]
     | none => []) ++ ((c.ty ++ '/' :: c.nm) :: childSegs cs)

/-! ## Character and segment lemmas -/

theorem lc_toNat (c : Char) :
    (lc c).toNat = if 65 ≤ c.toNat ∧ c.toNat ≤ 90 then c.toNat + 32 else c.toNat := by
  unfold lc
  split
  · rename_i h
    have hv : (c.toNat + 32).isValidChar := Or.inl (by omega)
    rw [Char.ofNat, dif_pos hv]
    rfl
  · rfl

theorem toNat_inj {c d : Char} (h : c.toNat = d.toNat) : c = d := by
  rw [← Char.ofNat_toNat c, ← Char.ofNat_toNat d, h]

theorem lc_eq_iff_slash (c : Char) : lc c = '/' ↔ c = '/' := by
  constructor
  · intro h
    have ht : (lc c).toNat = 47 := by rw [h]; rfl
    rw [lc_toNat] at ht
    split at ht
    · omega
    · exact toNat_inj ht
  · intro h; subst h; decide

theorem lstr_append (a b : List Char) : lstr (a ++ b) = lstr a ++ lstr b :=
  List.map_append lc a b

theorem lstr_nil : lstr [] = [] := rfl

theorem lstr_cons (c : Char) (t : List Char) : lstr (c :: t) = lc c :: lstr t := rfl

theorem slashP_lc (c : Char) :
    (fun c => decide (c ≠ '/')) (lc c) = (fun c => decide (c ≠ '/')) c := by
  simp only [decide_eq_decide]
  exact not_congr (lc_eq_iff_slash c)

theorem slashP_comp_lc :
    ((fun c => decide (c ≠ '/')) ∘ lc) = (fun c => decide (c ≠ '/')) :=
  funext slashP_lc

theorem seg_lstr (cs : List Char) : seg (lstr cs) = lstr (seg cs) := by
  unfold seg lstr
  rw [List.takeWhile_map, slashP_comp_lc]

theorem segRest_lstr (cs : List Char) : segRest (lstr cs) = lstr (segRest cs) := by
  unfold segRest lstr
  rw [List.dropWhile_map, slashP_comp_lc]

theorem seg_append_segRest (cs : List Char) : seg cs ++ segRest cs = cs :=
  List.takeWhile_append_dropWhile _ _

theorem noSlash_seg (cs : List Char) : NoSlash (seg cs) := by
  intro c hc
  have := List.mem_takeWhile_imp hc
  exact of_decide_eq_true this

theorem segRest_shape (cs : List Char) :
    segRest cs = [] ∨ ∃ t, segRest cs = '/' :: t := by
  induction cs with
  | nil => left; rfl
  | cons c t ih =>
    by_cases h : c = '/'
    · right
      refine ⟨t, ?_⟩
      subst h
      simp [segRest, List.dropWhile_cons]
    · simpa [segRest, List.dropWhile_cons, h] using ih

theorem seg_append (a t : List Char) (ha : NoSlash a)
    (ht : t = [] ∨ ∃ t', t = '/' :: t') : seg (a ++ t) = a := by
  unfold seg
  rw [List.takeWhile_append_of_pos (by intro c hc; exact decide_eq_true (ha c hc))]
  rcases ht with h | ⟨t', h⟩ <;> subst h <;> simp [List.takeWhile_cons]

theorem segRest_append (a t : List Char) (ha : NoSlash a)
    (ht : t = [] ∨ ∃ t', t = '/' :: t') : segRest (a ++ t) = t := by
  unfold segRest
  rw [List.dropWhile_append_of_pos (by intro c hc; exact decide_eq_true (ha c hc))]
  rcases ht with h | ⟨t', h⟩ <;> subst h <;> simp [List.dropWhile_cons]

theorem stripCI_sound (p : List Char) :
    ∀ cs r, stripCI p cs = some r → lstr cs = lstr p ++ lstr r := by
  induction p with
  | nil =>
    intro cs r h
    simp only [stripCI, Option.some.injEq] at h
    subst h; rfl
  | cons q ps ih =>
    intro cs r h
    cases cs with
    | nil => simp [stripCI] at h
    | cons c t =>
      simp only [stripCI] at h
      split at h
      · rename_i hlc
        rw [lstr_cons, lstr_cons, List.cons_append, ih t r h, hlc]
      · exact absurd h (by simp)

theorem stripCI_suffix (p : List Char) :
    ∀ cs r, stripCI p cs = some r → ∃ pre, cs = pre ++ r ∧ pre.length = p.length := by
  induction p with
  | nil =>
    intro cs r h
    simp only [stripCI, Option.some.injEq] at h
    exact ⟨[], by simp [h]⟩
  | cons q ps ih =>
    intro cs r h
    cases cs with
    | nil => simp [stripCI] at h
    | cons c t =>
      simp only [stripCI] at h
      split at h
      · obtain ⟨pre, hpre, hlen⟩ := ih t r h
        exact ⟨c :: pre, by simp [hpre], by simp [hlen]⟩
      · exact absurd h (by simp)

theorem stripCI_self_append (p t : List Char) : stripCI p (p ++ t) = some t := by
  induction p with
  | nil => rfl
  | cons q ps ih => simp [stripCI, ih]

theorem stripCI_lstr (p : List Char) :
    ∀ a b, lstr a = lstr b → (stripCI p a).map lstr = (stripCI p b).map lstr := by
  induction p with
  | nil =>
    intro a b h
    simp [stripCI, h]
  | cons q ps ih =>
    intro a b h
    cases a with
    | nil =>
      cases b with
      | nil => rfl
      | cons c t => simp [lstr] at h
    | cons c t =>
      cases b with
      | nil => simp [lstr] at h
      | cons c' t' =>
        rw [lstr_cons, lstr_cons] at h
        injection h with h1 h2
        simp only [stripCI, h1]
        split
        · exact ih t t' h2
        · rfl

/-! ## Child matcher lemmas -/

theorem matchChildPlain_sound {cs : List Char} {c : ChildSeg} {r : List Char}
    (h : matchChildPlain cs = some (c, r)) :
    cs = '/' :: (c.ty ++ '/' :: (c.nm ++ r)) ∧ c.nspace = none ∧
      NoSlash c.ty ∧ NoSlash c.nm ∧ c.nm ≠ [] ∧ (r = [] ∨ ∃ t, r = '/' :: t) := by
  unfold matchChildPlain at h
  split at h
  · rename_i r1
    split at h
    · rename_i r2 hr2
      split at h
      · exact absurd h (by simp)
      · rename_i hnm
        rw [Option.some.injEq, Prod.mk.injEq] at h
        obtain ⟨hc, hr⟩ := h
        subst hc; subst hr
        refine ⟨?_, rfl, noSlash_seg r1, noSlash_seg r2, hnm, segRest_shape r2⟩
        have hr1 : r1 = seg r1 ++ segRest r1 := (seg_append_segRest r1).symm
        rw [hr2] at hr1
        conv_rhs at hr1 => rw [← seg_append_segRest r2]
        conv_lhs => rw [hr1]
    · exact absurd h (by simp)
  · exact absurd h (by simp)

theorem matchChildPlain_canon {ty nm T : List Char} (hty : NoSlash ty)
    (hnm : NoSlash nm) (hne : nm ≠ []) (hT : T = [] ∨ ∃ t, T = '/' :: t) :
    matchChildPlain ('/' :: (ty ++ '/' :: (nm ++ T))) = some (⟨none, ty, nm⟩, T) := by
  have h1 : seg (ty ++ '/' :: (nm ++ T)) = ty :=
    seg_append ty ('/' :: (nm ++ T)) hty (Or.inr ⟨nm ++ T, rfl⟩)
  have h2 : segRest (ty ++ '/' :: (nm ++ T)) = '/' :: (nm ++ T) :=
    segRest_append ty ('/' :: (nm ++ T)) hty (Or.inr ⟨nm ++ T, rfl⟩)
  have h3 : seg (nm ++ T) = nm := seg_append nm T hnm hT
  have h4 : segRest (nm ++ T) = T := segRest_append nm T hnm hT
  simp only [matchChildPlain, h1, h2, h3, h4]
  simp [hne]

theorem matchChildAt_cases {cs : List Char} {c : ChildSeg} {r : List Char}
    (h : matchChildAt cs = some (c, r)) :
    (∃ r1, stripCI (chars "/providers/") cs = some r1 ∧ seg r1 ≠ [] ∧
       c.nspace = some (seg r1) ∧
       matchChildPlain (segRest r1) = some (⟨none, c.ty, c.nm⟩, r)) ∨
    (c.nspace = none ∧ matchChildPlain cs = some (c, r)) := by
  unfold matchChildAt at h
  split at h
  · rename_i r1 hstrip
    split at h
    · right
      exact ⟨(matchChildPlain_sound h).2.1, h⟩
    · rename_i hns
      split at h
      · rename_i c' r' hplain
        rw [Option.some.injEq, Prod.mk.injEq] at h
        obtain ⟨hc, hr⟩ := h
        left
        have hcn : c'.nspace = none := (matchChildPlain_sound hplain).2.1
        refine ⟨r1, hstrip, hns, by rw [← hc], ?_⟩
        rw [← hc, ← hr]
        show matchChildPlain (segRest r1) = some (⟨none, c'.ty, c'.nm⟩, r')
        rw [← hcn]
        exact hplain
      · right
        exact ⟨(matchChildPlain_sound h).2.1, h⟩
  · right
    exact ⟨(matchChildPlain_sound h).2.1, h⟩

theorem matchChildAt_sound {cs : List Char} {c : ChildSeg} {r : List Char}
    (h : matchChildAt cs = some (c, r)) :
    lstr cs = lstr (childCanon c) ++ lstr r ∧ WfChild c ∧
      (r = [] ∨ ∃ t, r = '/' :: t) := by
  rcases matchChildAt_cases h with ⟨r1, hstrip, hns, hcns, hplain⟩ | ⟨hcns, hplain⟩
  · obtain ⟨heq, -, hty, hnm, hnmne, hr⟩ := matchChildPlain_sound hplain
    simp only at heq hty hnm hnmne
    refine ⟨?_, ⟨?_, hty, hnmne, hnm⟩, hr⟩
    · have h1 := stripCI_sound _ _ _ hstrip
      have hr1 : r1 = seg r1 ++ segRest r1 := (seg_append_segRest r1).symm
      rw [heq] at hr1
      rw [h1]
      conv_lhs => rw [hr1]
      simp only [childCanon, hcns]
      simp [lstr_append, lstr_cons, List.append_assoc]
    · intro ns hns'
      rw [hcns] at hns'
      simp only [Option.mem_def, Option.some.injEq] at hns'
      subst hns'
      exact ⟨hns, noSlash_seg r1⟩
  · obtain ⟨heq, -, hty, hnm, hnmne, hr⟩ := matchChildPlain_sound hplain
    refine ⟨?_, ⟨?_, hty, hnmne, hnm⟩, hr⟩
    · rw [heq]
      simp only [childCanon, hcns]
      simp [lstr_append, lstr_cons]
    · intro ns hns'
      rw [hcns] at hns'
      simp at hns'

theorem childCanon_length_pos (c : ChildSeg) : 0 < (childCanon c).length := by
  unfold childCanon
  cases h : c.nspace <;> simp

theorem matchChildAt_length {cs : List Char} {c : ChildSeg} {r : List Char}
    (h : matchChildAt cs = some (c, r)) : r.length < cs.length := by
  have h1 := (matchChildAt_sound h).1
  have h2 := congrArg List.length h1
  simp only [lstr, List.length_map, List.length_append] at h2
  have := childCanon_length_pos c
  omega

theorem matchChildAt_nil : matchChildAt [] = none := rfl

/-! ## Fuel stability for the children scan -/

theorem findChildrenF_stable :
    ∀ f1 : Nat, ∀ f2 cs, cs.length < f1 → cs.length < f2 →
      findChildrenF f1 cs = findChildrenF f2 cs := by
  intro f1
  induction f1 with
  | zero => intro f2 cs h1 _; omega
  | succ f ih =>
    intro f2 cs h1 h2
    cases f2 with
    | zero => omega
    | succ f2' =>
      cases cs with
      | nil => rfl
      | cons a t =>
        simp only [findChildrenF]
        split
        · rename_i c r hm
          have hlen := matchChildAt_length hm
          simp only [List.length_cons] at h1 h2 hlen
          rw [ih f2' r (by omega) (by omega)]
        · simp only [List.length_cons] at h1 h2
          exact ih f2' t (by omega) (by omega)

theorem findChildren_match {cs : List Char} {c : ChildSeg} {r : List Char}
    (h : matchChildAt cs = some (c, r)) :
    findChildren cs = c :: findChildren r := by
  cases cs with
  | nil => rw [matchChildAt_nil] at h; exact absurd h (by simp)
  | cons a t =>
    unfold findChildren
    simp only [findChildrenF, h]
    have hlen := matchChildAt_length h
    simp only [List.length_cons] at hlen ⊢
    rw [findChildrenF_stable (t.length + 1) (r.length + 1) r (by omega) (by omega)]

theorem findChildren_skip {a : Char} {cs : List Char}
    (h : matchChildAt (a :: cs) = none) :
    findChildren (a :: cs) = findChildren cs := by
  unfold findChildren
  simp only [findChildrenF, h, List.length_cons]

theorem findChildren_nil : findChildren [] = [] := rfl

theorem coverF_stable :
    ∀ f1 : Nat, ∀ f2 cs, cs.length < f1 → cs.length < f2 →
      coverF f1 cs = coverF f2 cs := by
  intro f1
  induction f1 with
  | zero => intro f2 cs h1 _; omega
  | succ f ih =>
    intro f2 cs h1 h2
    cases f2 with
    | zero => omega
    | succ f2' =>
      cases cs with
      | nil => rfl
      | cons a t =>
        simp only [coverF]
        split
        · rename_i c r hm
          have hlen := matchChildAt_length hm
          simp only [List.length_cons] at h1 h2 hlen
          rw [ih f2' r (by omega) (by omega)]
        · rfl

theorem cover_match {cs : List Char} {c : ChildSeg} {r : List Char}
    (h : matchChildAt cs = some (c, r)) : cover cs = cover r := by
  cases cs with
  | nil => rw [matchChildAt_nil] at h; exact absurd h (by simp)
  | cons a t =>
    unfold cover
    simp only [coverF, h]
    have hlen := matchChildAt_length h
    simp only [List.length_cons] at hlen ⊢
    rw [coverF_stable (t.length + 1) (r.length + 1) r (by omega) (by omega)]

theorem cover_nil : cover [] = true := rfl

theorem cover_skip {a : Char} {cs : List Char}
    (h : matchChildAt (a :: cs) = none) : cover (a :: cs) = false := by
  unfold cover
  simp [coverF, h]

/-! ## Case-insensitivity of the child matcher's branch selection -/

theorem lstr_nil_iff {x : List Char} : lstr x = [] ↔ x = [] := by
  simp [lstr]

theorem lstr_cons_slash {a b : List Char} (h : lstr a = lstr b)
    {ta : List Char} (haeq : a = '/' :: ta) :
    ∃ tb, b = '/' :: tb ∧ lstr ta = lstr tb := by
  subst haeq
  cases b with
  | nil => simp [lstr] at h
  | cons y tb =>
    rw [lstr_cons, lstr_cons] at h
    injection h with h1 h2
    have hy : y = '/' := by
      rw [← lc_eq_iff_slash, ← h1]
      decide
    exact ⟨tb, by rw [hy], h2⟩

theorem matchChildPlain_not_slash {x : Char} {ta : List Char} (hx : x ≠ '/') :
    matchChildPlain (x :: ta) = none := by
  unfold matchChildPlain
  split
  · rename_i r1 heq
    injection heq with h1 _
    exact absurd h1 hx
  · rfl

theorem matchChildPlain_lstr {a b : List Char} (h : lstr a = lstr b) :
    (matchChildPlain a).map (fun p => (lstrCh p.1, lstr p.2)) =
    (matchChildPlain b).map (fun p => (lstrCh p.1, lstr p.2)) := by
  cases a with
  | nil =>
    have hb : b = [] := by
      rw [← lstr_nil_iff, ← h]
      rfl
    subst hb
    rfl
  | cons x ta =>
    by_cases hx : x = '/'
    · subst hx
      obtain ⟨tb, hb, ht⟩ := lstr_cons_slash h rfl
      subst hb
      have hseg : lstr (segRest ta) = lstr (segRest tb) := by
        rw [← segRest_lstr, ← segRest_lstr, ht]
      rcases segRest_shape ta with h2 | ⟨r2a, h2⟩
      · have h3 : segRest tb = [] := by
          rw [← lstr_nil_iff, ← hseg, h2]
          rfl
        simp [matchChildPlain, h2, h3]
      · obtain ⟨r2b, h3, ht2⟩ := lstr_cons_slash hseg h2
        have hsg : lstr (seg r2a) = lstr (seg r2b) := by
          rw [← seg_lstr, ← seg_lstr, ht2]
        have hta : lstr (seg ta) = lstr (seg tb) := by
          rw [← seg_lstr, ← seg_lstr, ht]
        have hrest : lstr (segRest r2a) = lstr (segRest r2b) := by
          rw [← segRest_lstr, ← segRest_lstr, ht2]
        by_cases hz : seg r2a = []
        · have hz' : seg r2b = [] := by
            rw [← lstr_nil_iff, ← hsg, hz]
            rfl
          simp [matchChildPlain, h2, h3, hz, hz']
        · have hz' : seg r2b ≠ [] := by
            intro hh
            exact hz (by rw [← lstr_nil_iff, hsg, hh]; rfl)
          simp only [matchChildPlain, h2, h3, if_neg hz, if_neg hz', Option.map_some']
          simp [lstrCh, hta, hsg, hrest]
    · cases b with
      | nil => simp [lstr] at h
      | cons y tb =>
        rw [lstr_cons, lstr_cons] at h
        injection h with h1 h2
        have hy : y ≠ '/' := by
          intro hh
          exact hx (by rw [← lc_eq_iff_slash, h1, hh]; decide)
        rw [matchChildPlain_not_slash hx, matchChildPlain_not_slash hy]

theorem matchChildAt_lstr {a b : List Char} (h : lstr a = lstr b) :
    (matchChildAt a).map (fun p => (lstrCh p.1, lstr p.2)) =
    (matchChildAt b).map (fun p => (lstrCh p.1, lstr p.2)) := by
  have hstrip := stripCI_lstr (chars "/providers/") a b h
  unfold matchChildAt
  cases hsa : stripCI (chars "/providers/") a with
  | none =>
    cases hsb : stripCI (chars "/providers/") b with
    | none => exact matchChildPlain_lstr h
    | some r1b =>
      rw [hsa, hsb] at hstrip
      simp at hstrip
  | some r1a =>
    cases hsb : stripCI (chars "/providers/") b with
    | none =>
      rw [hsa, hsb] at hstrip
      simp at hstrip
    | some r1b =>
      rw [hsa, hsb] at hstrip
      simp only [Option.map_some', Option.some.injEq] at hstrip
      have hsg : lstr (seg r1a) = lstr (seg r1b) := by
        rw [← seg_lstr, ← seg_lstr, hstrip]
      have hrr : lstr (segRest r1a) = lstr (segRest r1b) := by
        rw [← segRest_lstr, ← segRest_lstr, hstrip]
      by_cases hz : seg r1a = []
      · have hz' : seg r1b = [] := by
          rw [← lstr_nil_iff, ← hsg, hz]
          rfl
        simp only [if_pos hz, if_pos hz']
        exact matchChildPlain_lstr h
      · have hz' : seg r1b ≠ [] := by
          intro hh
          exact hz (by rw [← lstr_nil_iff, hsg, hh]; rfl)
        simp only [if_neg hz, if_neg hz']
        have hrec := matchChildPlain_lstr hrr
        cases hpa : matchChildPlain (segRest r1a) with
        | none =>
          cases hpb : matchChildPlain (segRest r1b) with
          | none => exact matchChildPlain_lstr h
          | some q =>
            rw [hpa, hpb] at hrec
            simp at hrec
        | some p =>
          cases hpb : matchChildPlain (segRest r1b) with
          | none =>
            rw [hpa, hpb] at hrec
            simp at hrec
          | some q =>
            rw [hpa, hpb] at hrec
            obtain ⟨pc, pr⟩ := p
            obtain ⟨qc, qr⟩ := q
            simp only [Option.map_some', Option.some.injEq, Prod.mk.injEq] at hrec ⊢
            obtain ⟨hrc, hrr2⟩ := hrec
            constructor
            · simp only [lstrCh] at hrc ⊢
              simp only [ChildSeg.mk.injEq] at hrc ⊢
              exact ⟨by simp [hsg], hrc.2⟩
            · exact hrr2

/-! ## Reparsing canonical child text -/

theorem shape_of_lstr {r T : List Char} (hr : r = [] ∨ ∃ t, r = '/' :: t)
    (hT : lstr T = lstr r) : T = [] ∨ ∃ t, T = '/' :: t := by
  rcases hr with h | ⟨t, h⟩
  · left
    rw [← lstr_nil_iff, hT, h]
    rfl
  · right
    obtain ⟨tb, htb, -⟩ := lstr_cons_slash hT.symm h
    exact ⟨tb, htb⟩

theorem matchChildAt_canon {cs : List Char} {c : ChildSeg} {r T : List Char}
    (h : matchChildAt cs = some (c, r)) (hT : lstr T = lstr r) :
    matchChildAt (childCanon c ++ T) = some (c, T) := by
  rcases matchChildAt_cases h with ⟨r1, hstrip, hns, hcns, hplain⟩ | ⟨hcns, hplain⟩
  · obtain ⟨heq, -, hty, hnm, hnmne, hr⟩ := matchChildPlain_sound hplain
    simp only at heq hty hnm hnmne
    have hTs : T = [] ∨ ∃ t, T = '/' :: t := shape_of_lstr hr hT
    have hshape : childCanon c ++ T =
        chars "/providers/" ++ (seg r1 ++ '/' :: (c.ty ++ '/' :: (c.nm ++ T))) := by
      simp [childCanon, hcns, List.append_assoc]
    rw [hshape]
    unfold matchChildAt
    rw [stripCI_self_append]
    dsimp only
    have hseg1 : seg (seg r1 ++ '/' :: (c.ty ++ '/' :: (c.nm ++ T))) = seg r1 :=
      seg_append _ _ (noSlash_seg r1) (Or.inr ⟨_, rfl⟩)
    have hseg2 : segRest (seg r1 ++ '/' :: (c.ty ++ '/' :: (c.nm ++ T))) =
        '/' :: (c.ty ++ '/' :: (c.nm ++ T)) :=
      segRest_append _ _ (noSlash_seg r1) (Or.inr ⟨_, rfl⟩)
    rw [hseg1, hseg2, if_neg hns, matchChildPlain_canon hty hnm hnmne hTs]
    have hc : c = ⟨some (seg r1), c.ty, c.nm⟩ := by
      cases c
      simp_all
    rw [Option.some.injEq, Prod.mk.injEq]
    exact ⟨by rw [← hc], rfl⟩
  · obtain ⟨heq, -, hty, hnm, hnmne, hr⟩ := matchChildPlain_sound hplain
    have hTs : T = [] ∨ ∃ t, T = '/' :: t := shape_of_lstr hr hT
    have hcanon : childCanon c ++ T = '/' :: (c.ty ++ '/' :: (c.nm ++ T)) := by
      simp [childCanon, hcns, List.append_assoc]
    have hlstr : lstr (childCanon c ++ T) = lstr cs := by
      rw [heq, hcanon]
      simp [lstr_cons, lstr_append, hT]
    have hmap := matchChildAt_lstr hlstr
    rw [h, Option.map_some'] at hmap
    cases hm : matchChildAt (childCanon c ++ T) with
    | none =>
      rw [hm] at hmap
      simp at hmap
    | some p =>
      obtain ⟨c', T'⟩ := p
      rw [hm, Option.map_some'] at hmap
      rw [Option.some.injEq, Prod.mk.injEq] at hmap
      obtain ⟨hmc, -⟩ := hmap
      have hcn' : c'.nspace = none := by
        have : c'.nspace.map lstr = c.nspace.map lstr := by
          simp only [lstrCh, ChildSeg.mk.injEq] at hmc
          exact hmc.1
        rw [hcns] at this
        exact Option.map_eq_none'.mp this
      rcases matchChildAt_cases hm with ⟨r1', -, -, hcontra, -⟩ | ⟨-, hplain'⟩
      · rw [hcontra] at hcn'
        exact absurd hcn' (by simp)
      · have hcomp := matchChildPlain_canon hty hnm hnmne hTs
        rw [hcanon, hcomp, Option.some.injEq, Prod.mk.injEq] at hplain'
        obtain ⟨hc', hT'⟩ := hplain'
        have hc : c = ⟨none, c.ty, c.nm⟩ := by
          cases c
          simp_all
        rw [Option.some.injEq, Prod.mk.injEq]
        exact ⟨by rw [← hc', ← hc], hT'.symm⟩

theorem cover_sound :
    ∀ n, ∀ cs : List Char, cs.length ≤ n → cover cs = true →
      lstr cs = lstr (childrenCanon (findChildren cs)) := by
  intro n
  induction n with
  | zero =>
    intro cs hlen _
    have : cs = [] := List.length_eq_zero.mp (by omega)
    subst this
    rfl
  | succ n ih =>
    intro cs hlen hcov
    cases hm : matchChildAt cs with
    | some p =>
      obtain ⟨c, r⟩ := p
      have hlt := matchChildAt_length hm
      have hcr : cover r = true := by rw [← cover_match hm]; exact hcov
      have hrec := ih r (by omega) hcr
      rw [findChildren_match hm]
      have hsnd := (matchChildAt_sound hm).1
      simp only [childrenCanon, List.map_cons, List.flatten_cons] at *
      rw [hsnd, hrec, lstr_append]
    | none =>
      cases cs with
      | nil => rfl
      | cons a t => rw [cover_skip hm] at hcov; exact absurd hcov (by simp)

theorem cover_reparse :
    ∀ n, ∀ cs : List Char, cs.length ≤ n → cover cs = true →
      findChildren (childrenCanon (findChildren cs)) = findChildren cs := by
  intro n
  induction n with
  | zero =>
    intro cs hlen _
    have : cs = [] := List.length_eq_zero.mp (by omega)
    subst this
    rfl
  | succ n ih =>
    intro cs hlen hcov
    cases hm : matchChildAt cs with
    | some p =>
      obtain ⟨c, r⟩ := p
      have hlt := matchChildAt_length hm
      have hcr : cover r = true := by rw [← cover_match hm]; exact hcov
      have hT : lstr (childrenCanon (findChildren r)) = lstr r :=
        (cover_sound n r (by omega) hcr).symm
      have hcanon := matchChildAt_canon hm hT
      rw [findChildren_match hm]
      show findChildren (childCanon c ++ childrenCanon (findChildren r)) = _
      rw [findChildren_match hcanon]
      rw [ih r (by omega) hcr]
    | none =>
      cases cs with
      | nil => rfl
      | cons a t => rw [cover_skip hm] at hcov; exact absurd hcov (by simp)

/-! ## Newline-freedom and well-formedness of the child matches -/

theorem noNl_seg {cs : List Char} (h : NoNl cs) : NoNl (seg cs) :=
  fun c hc => h c ((List.takeWhile_sublist _).mem hc)

theorem noNl_segRest {cs : List Char} (h : NoNl cs) : NoNl (segRest cs) :=
  fun c hc => h c ((List.dropWhile_sublist _).mem hc)

theorem noNl_append {a b : List Char} (ha : NoNl a) (hb : NoNl b) :
    NoNl (a ++ b) := by
  intro c hc
  rcases List.mem_append.mp hc with h | h
  · exact ha c h
  · exact hb c h

theorem noNl_cons {a : Char} {b : List Char} (ha : a ≠ '\n') (hb : NoNl b) :
    NoNl (a :: b) := by
  intro c hc
  rcases List.mem_cons.mp hc with h | h
  · rw [h]; exact ha
  · exact hb c h

theorem noNl_append_elim {a b : List Char} (h : NoNl (a ++ b)) :
    NoNl a ∧ NoNl b :=
  ⟨fun c hc => h c (List.mem_append.mpr (Or.inl hc)),
   fun c hc => h c (List.mem_append.mpr (Or.inr hc))⟩

theorem noNl_providers : NoNl (chars "/providers/") := by
  intro c hc
  fin_cases hc <;> decide

theorem matchChildAt_noNl {cs : List Char} {c : ChildSeg} {r : List Char}
    (hnn : NoNl cs) (h : matchChildAt cs = some (c, r)) :
    NoNl (childCanon c) ∧ NoNl r := by
  rcases matchChildAt_cases h with ⟨r1, hstrip, -, hcns, hplain⟩ | ⟨hcns, hplain⟩
  · obtain ⟨heq, -, -, -, -, -⟩ := matchChildPlain_sound hplain
    simp only at heq
    obtain ⟨pre, hpre, -⟩ := stripCI_suffix _ _ _ hstrip
    have hr1 : NoNl r1 := (noNl_append_elim (hpre ▸ hnn)).2
    have hrest := noNl_segRest hr1
    rw [heq] at hrest
    have h1 := (noNl_append_elim (fun c hc => hrest c (List.mem_cons_of_mem _ hc)))
    have h2 := noNl_append_elim (fun c hc => h1.2 c (List.mem_cons_of_mem _ hc))
    refine ⟨?_, h2.2⟩
    unfold childCanon
    rw [hcns]
    refine noNl_append (noNl_append noNl_providers (noNl_seg hr1)) ?_
    refine noNl_cons (by decide) (noNl_append h1.1 (noNl_cons (by decide) h2.1))
  · obtain ⟨heq, -, -, -, -, -⟩ := matchChildPlain_sound hplain
    rw [heq] at hnn
    have h1 := (noNl_append_elim (fun c hc => hnn c (List.mem_cons_of_mem _ hc)))
    have h2 := noNl_append_elim (fun c hc => h1.2 c (List.mem_cons_of_mem _ hc))
    refine ⟨?_, h2.2⟩
    unfold childCanon
    rw [hcns]
    simpa using noNl_cons (by decide) (noNl_append h1.1 (noNl_cons (by decide) h2.1))

theorem findChildren_noNl :
    ∀ n, ∀ cs : List Char, cs.length ≤ n → NoNl cs →
      NoNl (childrenCanon (findChildren cs)) := by
  intro n
  induction n with
  | zero =>
    intro cs hlen _
    have : cs = [] := List.length_eq_zero.mp (by omega)
    subst this
    intro c hc
    simp [childrenCanon, findChildren_nil] at hc
  | succ n ih =>
    intro cs hlen hnn
    cases hm : matchChildAt cs with
    | some p =>
      obtain ⟨c, r⟩ := p
      have hlt := matchChildAt_length hm
      obtain ⟨hcn, hrn⟩ := matchChildAt_noNl hnn hm
      rw [findChildren_match hm]
      show NoNl (childCanon c ++ childrenCanon (findChildren r))
      exact noNl_append hcn (ih r (by omega) hrn)
    | none =>
      cases cs with
      | nil =>
        intro c hc
        simp [childrenCanon, findChildren_nil] at hc
      | cons a t =>
        rw [findChildren_skip hm]
        exact ih t (by simp at hlen; omega) fun c hc => hnn c (List.mem_cons_of_mem _ hc)

theorem findChildren_wf :
    ∀ n, ∀ cs : List Char, cs.length ≤ n → ∀ c ∈ findChildren cs, WfChild c := by
  intro n
  induction n with
  | zero =>
    intro cs hlen c hc
    have : cs = [] := List.length_eq_zero.mp (by omega)
    subst this
    simp [findChildren_nil] at hc
  | succ n ih =>
    intro cs hlen c hc
    cases hm : matchChildAt cs with
    | some p =>
      obtain ⟨c', r⟩ := p
      have hlt := matchChildAt_length hm
      rw [findChildren_match hm] at hc
      rcases List.mem_cons.mp hc with h | h
      · rw [h]; exact (matchChildAt_sound hm).2.1
      · exact ih r (by omega) c h
    | none =>
      cases cs with
      | nil => simp [findChildren_nil] at hc
      | cons a t =>
        rw [findChildren_skip hm] at hc
        exact ih t (by simp at hlen; omega) c hc

/-! ## Root matcher lemmas -/

theorem matchRG_sound {cs g r3 : List Char} (h : matchRG cs = some (g, r3)) :
    lstr cs = lstr (chars "/resourceGroups/") ++ lstr g ++ lstr r3 ∧
      g ≠ [] ∧ NoSlash g ∧ (r3 = [] ∨ ∃ t, r3 = '/' :: t) := by
  unfold matchRG at h
  split at h
  · rename_i r hstrip
    split at h
    · exact absurd h (by simp)
    · rename_i hne
      rw [Option.some.injEq, Prod.mk.injEq] at h
      obtain ⟨hg, hr3⟩ := h
      subst hg; subst hr3
      refine ⟨?_, hne, noSlash_seg r, segRest_shape r⟩
      rw [stripCI_sound _ _ _ hstrip]
      conv_lhs => rw [← seg_append_segRest r]
      simp [lstr_append, List.append_assoc]
  · exact absurd h (by simp)

theorem matchProv_sound {cs : List Char} {p : ProvPart} {r4 : List Char}
    (h : matchProv cs = some (p, r4)) :
    lstr cs = lstr (chars "/providers/") ++
        lstr (p.nspace ++ '/' :: (p.ty ++ '/' :: (p.nm ++ (p.children ++ r4)))) ∧
      p.nspace ≠ [] ∧ NoSlash p.nspace ∧ NoSlash p.ty ∧ p.nm ≠ [] ∧
      NoSlash p.nm ∧ NoNl p.children ∧
      (p.children = [] ∨ ∃ t, p.children = '/' :: t) := by
  unfold matchProv at h
  split at h
  · rename_i r1 hstrip
    split at h
    · exact absurd h (by simp)
    · rename_i hns
      split at h
      · rename_i r2 hr2
        split at h
        · rename_i r3 hr3
          split at h
          · exact absurd h (by simp)
          · rename_i hnm
            rw [Option.some.injEq, Prod.mk.injEq] at h
            obtain ⟨hp, hr4⟩ := h
            subst hp; subst hr4
            have hchsh : ∀ u : List Char,
                (u = [] ∨ ∃ t, u = '/' :: t) →
                  u.takeWhile (fun c => c ≠ '\n') = [] ∨
                    ∃ t, u.takeWhile (fun c => c ≠ '\n') = '/' :: t := by
              intro u hu
              rcases hu with hu | ⟨t, hu⟩
              · left; rw [hu]; rfl
              · right
                rw [hu]
                exact ⟨t.takeWhile (fun c => c ≠ '\n'), by simp [List.takeWhile_cons]⟩
            refine ⟨?_, hns, noSlash_seg r1, noSlash_seg r2, hnm, noSlash_seg r3,
              ?_, hchsh _ (segRest_shape r3)⟩
            · rw [stripCI_sound _ _ _ hstrip]
              congr 1
              conv_lhs => rw [← seg_append_segRest r1, hr2]
              simp only [lstr_append, lstr_cons, List.cons_append, List.append_assoc]
              congr 2
              conv_lhs => rw [← seg_append_segRest r2, hr3]
              simp only [lstr_append, lstr_cons, List.cons_append, List.append_assoc]
              congr 2
              conv_lhs => rw [← seg_append_segRest r3]
              rw [lstr_append]
              congr 1
              rw [← lstr_append, List.takeWhile_append_dropWhile]
            · intro c hc
              have hc' : c ∈ (segRest r3).takeWhile (fun c => decide (c ≠ '\n')) := hc
              have h3 := List.mem_takeWhile_imp hc'
              simp only [decide_eq_true_eq] at h3
              exact h3
        · exact absurd h (by simp)
      · exact absurd h (by simp)
  · exact absurd h (by simp)

theorem matchRoot_sound {x : List Char} {r : RootMatch}
    (h : matchRoot x = some r) :
    lstr x = lstr (rawRoot r) ++ lstr r.rest ∧ WfRoot r := by
  unfold matchRoot at h
  split at h
  · rename_i r0 hstrip
    split at h
    · exact absurd h (by simp)
    · rename_i hsub
      have hx : lstr x =
          lstr (chars "/subscriptions/") ++ (lstr (seg r0) ++ lstr (segRest r0)) := by
        rw [stripCI_sound _ _ _ hstrip]
        conv_lhs => rw [← seg_append_segRest r0]
        simp [lstr_append, List.append_assoc]
      split at h
      · rename_i g r3 hrg
        obtain ⟨hrg1, hgne, hgns, hr3sh⟩ := matchRG_sound hrg
        split at h
        · rename_i p r4 hpv
          obtain ⟨hpv1, hpns, hpnsl, hptyl, hpnm, hpnml, hpnn, hpsh⟩ :=
            matchProv_sound hpv
          rw [Option.some.injEq] at h
          subst h
          constructor
          · rw [hx, hrg1, hpv1]
            simp [rawRoot, lstr_append, lstr_cons, List.append_assoc]
          · refine ⟨hsub, noSlash_seg r0, ?_, ?_⟩
            · intro g' hg'
              simp only [Option.mem_def, Option.some.injEq] at hg'
              subst hg'
              exact ⟨hgne, hgns⟩
            · intro p' hp'
              simp only [Option.mem_def, Option.some.injEq] at hp'
              subst hp'
              exact ⟨hpns, hpnsl, hptyl, hpnm, hpnml, hpnn, hpsh⟩
        · rename_i hpv
          rw [Option.some.injEq] at h
          subst h
          constructor
          · rw [hx, hrg1]
            simp [rawRoot, lstr_append, lstr_cons, List.append_assoc]
          · refine ⟨hsub, noSlash_seg r0, ?_, ?_⟩
            · intro g' hg'
              simp only [Option.mem_def, Option.some.injEq] at hg'
              subst hg'
              exact ⟨hgne, hgns⟩
            · intro p' hp'
              simp at hp'
      · rename_i hrg
        split at h
        · rename_i p r4 hpv
          obtain ⟨hpv1, hpns, hpnsl, hptyl, hpnm, hpnml, hpnn, hpsh⟩ :=
            matchProv_sound hpv
          rw [Option.some.injEq] at h
          subst h
          constructor
          · rw [hx, hpv1]
            simp [rawRoot, lstr_append, lstr_cons, List.append_assoc]
          · refine ⟨hsub, noSlash_seg r0, ?_, ?_⟩
            · intro g' hg'
              simp at hg'
            · intro p' hp'
              simp only [Option.mem_def, Option.some.injEq] at hp'
              subst hp'
              exact ⟨hpns, hpnsl, hptyl, hpnm, hpnml, hpnn, hpsh⟩
        · rename_i hpv
          rw [Option.some.injEq] at h
          subst h
          constructor
          · rw [hx]
            simp [rawRoot, lstr_append, List.append_assoc]
          · refine ⟨hsub, noSlash_seg r0, ?_, ?_⟩
            · intro g' hg'
              simp at hg'
            · intro p' hp'
              simp at hp'
  · exact absurd h (by simp)

/-! ## Parsing canonical root text -/

theorem stripCI_rg_prov (t : List Char) :
    stripCI (chars "/resourceGroups/") (chars "/providers/" ++ t) = none := rfl

theorem stripCI_rg_nil : stripCI (chars "/resourceGroups/") [] = none := rfl

theorem matchRG_nil : matchRG [] = none := rfl

theorem matchProv_nil : matchProv [] = none := rfl

theorem matchRG_canon {g T : List Char} (hne : g ≠ []) (hns : NoSlash g)
    (hT : T = [] ∨ ∃ t, T = '/' :: t) :
    matchRG (chars "/resourceGroups/" ++ (g ++ T)) = some (g, T) := by
  unfold matchRG
  rw [stripCI_self_append]
  dsimp only
  rw [seg_append g T hns hT, segRest_append g T hns hT]
  simp [hne]

theorem matchProv_canon {ns ty nm T : List Char} (hnse : ns ≠ [])
    (hnssl : NoSlash ns) (htysl : NoSlash ty) (hnme : nm ≠ [])
    (hnmsl : NoSlash nm) (hTnn : NoNl T) (hT : T = [] ∨ ∃ t, T = '/' :: t) :
    matchProv (chars "/providers/" ++ (ns ++ '/' :: (ty ++ '/' :: (nm ++ T)))) =
      some (⟨ns, ty, nm, T⟩, []) := by
  have e1 : seg (ns ++ '/' :: (ty ++ '/' :: (nm ++ T))) = ns :=
    seg_append _ _ hnssl (Or.inr ⟨_, rfl⟩)
  have e2 : segRest (ns ++ '/' :: (ty ++ '/' :: (nm ++ T))) =
      '/' :: (ty ++ '/' :: (nm ++ T)) :=
    segRest_append _ _ hnssl (Or.inr ⟨_, rfl⟩)
  have e3 : seg (ty ++ '/' :: (nm ++ T)) = ty :=
    seg_append _ _ htysl (Or.inr ⟨_, rfl⟩)
  have e4 : segRest (ty ++ '/' :: (nm ++ T)) = '/' :: (nm ++ T) :=
    segRest_append _ _ htysl (Or.inr ⟨_, rfl⟩)
  have e5 : seg (nm ++ T) = nm := seg_append _ _ hnmsl hT
  have e6 : segRest (nm ++ T) = T := segRest_append _ _ hnmsl hT
  have h1 : T.takeWhile (fun c => decide (c ≠ '\n')) = T :=
    List.takeWhile_eq_self_iff.mpr fun x hx => decide_eq_true (hTnn x hx)
  have h2 : T.dropWhile (fun c => decide (c ≠ '\n')) = [] :=
    List.dropWhile_eq_nil_iff.mpr fun x hx => decide_eq_true (hTnn x hx)
  unfold matchProv
  rw [stripCI_self_append]
  simp only [e1, e2, e3, e4, e5, e6, h1, h2, if_neg hnse, if_neg hnme]

theorem matchRG_prov (t : List Char) :
    matchRG (chars "/providers/" ++ t) = none := by
  unfold matchRG
  rw [stripCI_rg_prov]

theorem seg_of_noSlash {cs : List Char} (h : NoSlash cs) : seg cs = cs :=
  List.takeWhile_eq_self_iff.mpr fun x hx => decide_eq_true (h x hx)

theorem segRest_of_noSlash {cs : List Char} (h : NoSlash cs) : segRest cs = [] :=
  List.dropWhile_eq_nil_iff.mpr fun x hx => decide_eq_true (h x hx)

theorem matchRoot_canon {r : RootMatch} (hwf : WfRoot r) (hrest : r.rest = []) :
    matchRoot (rawRoot r) = some r := by
  obtain ⟨hsub, hsubsl, hg, hp⟩ := hwf
  obtain ⟨sub, rg, pv, rest⟩ := r
  simp only at hsub hsubsl hg hp hrest
  subst hrest
  unfold rawRoot matchRoot
  rw [stripCI_self_append]
  cases rg with
  | some g =>
    obtain ⟨hgne, hgns⟩ := hg g rfl
    cases pv with
    | some p =>
      obtain ⟨hpns, hpnsl, hptyl, hpnm, hpnml, hpnn, hpsh⟩ := hp p rfl
      dsimp only
      have e1 : seg (sub ++ (chars "/resourceGroups/" ++ g ++
          (chars "/providers/" ++ (p.nspace ++ '/' :: (p.ty ++ '/' :: (p.nm ++ p.children)))))) = sub :=
        seg_append _ _ hsubsl (Or.inr ⟨_, rfl⟩)
      have e2 : segRest (sub ++ (chars "/resourceGroups/" ++ g ++
          (chars "/providers/" ++ (p.nspace ++ '/' :: (p.ty ++ '/' :: (p.nm ++ p.children)))))) =
          chars "/resourceGroups/" ++ g ++
            (chars "/providers/" ++ (p.nspace ++ '/' :: (p.ty ++ '/' :: (p.nm ++ p.children)))) :=
        segRest_append _ _ hsubsl (Or.inr ⟨_, rfl⟩)
      rw [e1, e2, if_neg hsub]
      rw [List.append_assoc (chars "/resourceGroups/") g]
      have e3 : matchRG (chars "/resourceGroups/" ++ (g ++
          (chars "/providers/" ++ (p.nspace ++ '/' :: (p.ty ++ '/' :: (p.nm ++ p.children)))))) =
          some (g, chars "/providers/" ++ (p.nspace ++ '/' :: (p.ty ++ '/' :: (p.nm ++ p.children)))) :=
        matchRG_canon hgne hgns (Or.inr ⟨_, rfl⟩)
      rw [e3]
      dsimp only
      rw [matchProv_canon hpns hpnsl hptyl hpnm hpnml hpnn hpsh]
    | none =>
      dsimp only
      have e1 : seg (sub ++ (chars "/resourceGroups/" ++ g ++ [])) = sub :=
        seg_append _ _ hsubsl (Or.inr ⟨_, rfl⟩)
      have e2 : segRest (sub ++ (chars "/resourceGroups/" ++ g ++ [])) =
          chars "/resourceGroups/" ++ g ++ [] :=
        segRest_append _ _ hsubsl (Or.inr ⟨_, rfl⟩)
      rw [e1, e2, if_neg hsub]
      rw [List.append_assoc (chars "/resourceGroups/") g]
      have e3 : matchRG (chars "/resourceGroups/" ++ (g ++ [])) = some (g, []) :=
        matchRG_canon hgne hgns (Or.inl rfl)
      rw [e3]
      dsimp only
      rw [matchProv_nil]
  | none =>
    cases pv with
    | some p =>
      obtain ⟨hpns, hpnsl, hptyl, hpnm, hpnml, hpnn, hpsh⟩ := hp p rfl
      dsimp only
      rw [List.nil_append]
      have e1 : seg (sub ++ (chars "/providers/" ++
          (p.nspace ++ '/' :: (p.ty ++ '/' :: (p.nm ++ p.children))))) = sub :=
        seg_append _ _ hsubsl (Or.inr ⟨_, rfl⟩)
      have e2 : segRest (sub ++ (chars "/providers/" ++
          (p.nspace ++ '/' :: (p.ty ++ '/' :: (p.nm ++ p.children))))) =
          chars "/providers/" ++ (p.nspace ++ '/' :: (p.ty ++ '/' :: (p.nm ++ p.children))) :=
        segRest_append _ _ hsubsl (Or.inr ⟨_, rfl⟩)
      rw [e1, e2, if_neg hsub]
      rw [matchRG_prov]
      dsimp only
      rw [matchProv_canon hpns hpnsl hptyl hpnm hpnml hpnn hpsh]
    | none =>
      dsimp only
      rw [List.nil_append, List.append_nil]
      rw [seg_of_noSlash hsubsl, segRest_of_noSlash hsubsl, if_neg hsub]
      rw [matchRG_nil]
      dsimp only
      rw [matchProv_nil]

/-! ## Dict lookup lemmas -/

theorem lookupD_nil (k : Key) : lookupD [] k = none := rfl

theorem lookupD_cons (k' : Key) (v : Val) (d : Dict) (k : Key) :
    lookupD ((k', v) :: d) k = if k' = k then some v else lookupD d k := rfl

theorem lookupD_append_some {a : Dict} {k : Key} {v : Val}
    (h : lookupD a k = some v) (b : Dict) : lookupD (a ++ b) k = some v := by
  induction a with
  | nil => simp [lookupD] at h
  | cons kv t ih =>
    obtain ⟨k', w⟩ := kv
    rw [lookupD_cons] at h
    rw [List.cons_append, lookupD_cons]
    split
    · rwa [if_pos (by assumption)] at h
    · rw [if_neg (by assumption)] at h
      exact ih h

theorem lookupD_append_none {a : Dict} {k : Key}
    (h : lookupD a k = none) (b : Dict) : lookupD (a ++ b) k = lookupD b k := by
  induction a with
  | nil => rfl
  | cons kv t ih =>
    obtain ⟨k', w⟩ := kv
    rw [lookupD_cons] at h
    rw [List.cons_append, lookupD_cons]
    split
    · rw [if_pos (by assumption)] at h
      exact absurd h (by simp)
    · rw [if_neg (by assumption)] at h
      exact ih h

theorem lookupD_not_mem {d : Dict} {k : Key} (h : ∀ kv ∈ d, kv.1 ≠ k) :
    lookupD d k = none := by
  induction d with
  | nil => rfl
  | cons kv t ih =>
    obtain ⟨k', v⟩ := kv
    rw [lookupD_cons, if_neg (h (k', v) (List.mem_cons_self _ _))]
    exact ih fun kv hkv => h kv (List.mem_cons_of_mem _ hkv)

/-- Keys occurring in the child group entries. -/
def IsChildGroupKey : Key → Prop
  | .child_nspace _ => True
  | .child_ty _ => True
  | .child_nm _ => True
  | _ => False

theorem optEntry_keys {k : Key} {o : Option (List Char)} :
    ∀ kv ∈ optEntry k o, kv.1 = k := by
  intro kv hkv
  cases o with
  | none => simp [optEntry] at hkv
  | some v =>
    simp only [optEntry, List.mem_singleton] at hkv
    rw [hkv]

theorem childGroupEntries_keys {s : Nat} {l : List ChildSeg} :
    ∀ kv ∈ childGroupEntries s l, IsChildGroupKey kv.1 := by
  induction l generalizing s with
  | nil => intro kv hkv; simp [childGroupEntries] at hkv
  | cons c cs ih =>
    intro kv hkv
    unfold childGroupEntries at hkv
    rcases List.mem_append.mp hkv with h1 | h1
    · rcases List.mem_append.mp h1 with h2 | h2
      · rw [optEntry_keys kv h2]; trivial
      · rcases List.mem_cons.mp h2 with h3 | h3
        · rw [h3]; trivial
        · rcases List.mem_cons.mp h3 with h4 | h4
          · rw [h4]; trivial
          · simp at h4
    · exact ih kv h1

theorem lookupD_childGroup_not {s : Nat} {l : List ChildSeg} {k : Key}
    (h : ¬ IsChildGroupKey k) : lookupD (childGroupEntries s l) k = none :=
  lookupD_not_mem fun kv hkv hk =>
    h (hk ▸ childGroupEntries_keys kv hkv)

theorem childParentEntries_keys {s : Nat} {l : List (List Char)} :
    ∀ kv ∈ childParentEntries s l, ∃ i, kv.1 = Key.child_parent i := by
  induction l generalizing s with
  | nil => intro kv hkv; simp [childParentEntries] at hkv
  | cons p ps ih =>
    intro kv hkv
    rcases List.mem_cons.mp hkv with h | h
    · exact ⟨s, by rw [h]⟩
    · exact ih kv h

theorem lookupD_childParent_not {s : Nat} {l : List (List Char)} {k : Key}
    (h : ∀ i, k ≠ Key.child_parent i) :
    lookupD (childParentEntries s l) k = none :=
  lookupD_not_mem fun kv hkv hk => by
    obtain ⟨i, hi⟩ := childParentEntries_keys kv hkv
    rw [hi] at hk
    exact h i hk.symm

theorem lookupD_childGroup_ty {l : List ChildSeg} :
    ∀ s i, 1 ≤ s →
      lookupD (childGroupEntries s l) (Key.child_ty i) =
        if s ≤ i then (l.get? (i - s)).map (fun c => Val.s c.ty) else none := by
  induction l with
  | nil =>
    intro s i hs
    simp [childGroupEntries, lookupD_nil]
  | cons c cs ih =>
    intro s i hs
    unfold childGroupEntries
    by_cases hsi : s = i
    · subst hsi
      have h1 : lookupD (optEntry (Key.child_nspace s) c.nspace) (Key.child_ty s) = none :=
        lookupD_not_mem fun kv hkv => by rw [optEntry_keys kv hkv]; simp
      rw [List.append_assoc, lookupD_append_none h1]
      rw [List.cons_append, lookupD_cons, if_pos rfl]
      simp
    · have h1 : lookupD (optEntry (Key.child_nspace s) c.nspace) (Key.child_ty i) = none :=
        lookupD_not_mem fun kv hkv => by rw [optEntry_keys kv hkv]; simp
      rw [List.append_assoc, lookupD_append_none h1]
      rw [List.cons_append, lookupD_cons, if_neg (by simp [hsi])]
      rw [List.cons_append, lookupD_cons, if_neg (by simp)]
      rw [List.nil_append, ih (s + 1) i (by omega)]
      by_cases hle : s ≤ i
      · have hlt : s < i := by omega
        rw [if_pos (by omega), if_pos hle]
        have : i - s = (i - (s + 1)) + 1 := by omega
        rw [this]
        rfl
      · rw [if_neg (by omega), if_neg hle]

theorem lookupD_childGroup_nm {l : List ChildSeg} :
    ∀ s i, 1 ≤ s →
      lookupD (childGroupEntries s l) (Key.child_nm i) =
        if s ≤ i then (l.get? (i - s)).map (fun c => Val.s c.nm) else none := by
  induction l with
  | nil =>
    intro s i hs
    simp [childGroupEntries, lookupD_nil]
  | cons c cs ih =>
    intro s i hs
    unfold childGroupEntries
    by_cases hsi : s = i
    · subst hsi
      have h1 : lookupD (optEntry (Key.child_nspace s) c.nspace) (Key.child_nm s) = none :=
        lookupD_not_mem fun kv hkv => by rw [optEntry_keys kv hkv]; simp
      rw [List.append_assoc, lookupD_append_none h1]
      rw [List.cons_append, lookupD_cons, if_neg (by simp)]
      rw [List.cons_append, lookupD_cons, if_pos rfl]
      simp
    · have h1 : lookupD (optEntry (Key.child_nspace s) c.nspace) (Key.child_nm i) = none :=
        lookupD_not_mem fun kv hkv => by rw [optEntry_keys kv hkv]; simp
      rw [List.append_assoc, lookupD_append_none h1]
      rw [List.cons_append, lookupD_cons, if_neg (by simp)]
      rw [List.cons_append, lookupD_cons, if_neg (by simp [hsi])]
      rw [List.nil_append, ih (s + 1) i (by omega)]
      by_cases hle : s ≤ i
      · have hlt : s < i := by omega
        rw [if_pos (by omega), if_pos hle]
        have : i - s = (i - (s + 1)) + 1 := by omega
        rw [this]
        rfl
      · rw [if_neg (by omega), if_neg hle]

theorem lookupD_childGroup_nspace {l : List ChildSeg} :
    ∀ s i, 1 ≤ s →
      lookupD (childGroupEntries s l) (Key.child_nspace i) =
        if s ≤ i then (l.get? (i - s)).bind (fun c => c.nspace.map Val.s) else none := by
  induction l with
  | nil =>
    intro s i hs
    simp [childGroupEntries, lookupD_nil]
  | cons c cs ih =>
    intro s i hs
    unfold childGroupEntries
    by_cases hsi : s = i
    · subst hsi
      cases hcn : c.nspace with
      | some ns =>
        rw [List.append_assoc]
        rw [lookupD_append_some (show lookupD (optEntry (Key.child_nspace s) (some ns))
          (Key.child_nspace s) = some (Val.s ns) by simp [optEntry, lookupD_cons])]
        simp [hcn]
      | none =>
        have h1 : lookupD (optEntry (Key.child_nspace s) none) (Key.child_nspace s) = none := rfl
        rw [List.append_assoc, lookupD_append_none h1]
        rw [List.cons_append, lookupD_cons, if_neg (by simp)]
        rw [List.cons_append, lookupD_cons, if_neg (by simp)]
        rw [List.nil_append, ih (s + 1) s (by omega)]
        rw [if_neg (by omega), if_pos (by omega)]
        simp [hcn]
    · have h1 : lookupD (optEntry (Key.child_nspace s) c.nspace) (Key.child_nspace i) = none :=
        lookupD_not_mem fun kv hkv => by rw [optEntry_keys kv hkv]; simp [hsi]
      rw [List.append_assoc, lookupD_append_none h1]
      rw [List.cons_append, lookupD_cons, if_neg (by simp)]
      rw [List.cons_append, lookupD_cons, if_neg (by simp)]
      rw [List.nil_append, ih (s + 1) i (by omega)]
      by_cases hle : s ≤ i
      · have hlt : s < i := by omega
        rw [if_pos (by omega), if_pos hle]
        have : i - s = (i - (s + 1)) + 1 := by omega
        rw [this]
        rfl
      · rw [if_neg (by omega), if_neg hle]

theorem lookupD_childParent {l : List (List Char)} :
    ∀ s i, lookupD (childParentEntries s l) (Key.child_parent i) =
      if s ≤ i then (l.get? (i - s)).map Val.s else none := by
  induction l with
  | nil => intro s i; simp [childParentEntries, lookupD_nil]
  | cons p ps ih =>
    intro s i
    unfold childParentEntries
    by_cases hsi : s = i
    · subst hsi
      rw [lookupD_cons, if_pos rfl, if_pos (by omega)]
      simp
    · rw [lookupD_cons, if_neg (by simp [hsi]), ih (s + 1) i]
      by_cases hle : s ≤ i
      · rw [if_pos (by omega), if_pos hle]
        have : i - s = (i - (s + 1)) + 1 := by omega
        rw [this]
        rfl
      · rw [if_neg (by omega), if_neg hle]


theorem lookupD_append (a b : Dict) (k : Key) :
    lookupD (a ++ b) k = (lookupD a k).or (lookupD b k) := by
  induction a with
  | nil => rfl
  | cons kv t ih =>
    obtain ⟨k', v⟩ := kv
    simp only [List.cons_append, lookupD_cons]
    split
    · rfl
    · exact ih

/-! ## Lookups in the parsed mapping -/

theorem mkDictC_subscription (r : RootMatch) (children : List ChildSeg) :
    lookupD (mkDictC r children) Key.subscription = some (Val.s r.subscription) := by
  unfold mkDictC
  simp [lookupD_append, lookupD_cons]

theorem mkDictC_resource_group (r : RootMatch) (children : List ChildSeg) :
    lookupD (mkDictC r children) Key.resource_group = r.resourceGroup.map Val.s := by
  unfold mkDictC
  cases r.resourceGroup <;> cases r.provider <;>
    simp [lookupD_append, lookupD_cons, lookupD_nil, optEntry, apply_ite (fun d => lookupD d Key.resource_group),
      lookupD_childGroup_not (show ¬ IsChildGroupKey Key.resource_group from fun h => h),
      lookupD_childParent_not (show ∀ i, Key.resource_group ≠ Key.child_parent i from
        fun i h => by cases h)]

theorem mkDictC_nspace (r : RootMatch) (children : List ChildSeg) :
    lookupD (mkDictC r children) Key.nspace =
      r.provider.map (fun p => Val.s p.nspace) := by
  unfold mkDictC
  cases r.resourceGroup <;> cases r.provider <;>
    simp [lookupD_append, lookupD_cons, lookupD_nil, optEntry,
      apply_ite (fun d => lookupD d Key.nspace),
      lookupD_childGroup_not (show ¬ IsChildGroupKey Key.nspace from fun h => h),
      lookupD_childParent_not (show ∀ i, Key.nspace ≠ Key.child_parent i from
        fun i h => by cases h)]

theorem mkDictC_ty (r : RootMatch) (children : List ChildSeg) :
    lookupD (mkDictC r children) Key.ty =
      r.provider.map (fun p => Val.s p.ty) := by
  unfold mkDictC
  cases r.resourceGroup <;> cases r.provider <;>
    simp [lookupD_append, lookupD_cons, lookupD_nil, optEntry,
      apply_ite (fun d => lookupD d Key.ty),
      lookupD_childGroup_not (show ¬ IsChildGroupKey Key.ty from fun h => h),
      lookupD_childParent_not (show ∀ i, Key.ty ≠ Key.child_parent i from
        fun i h => by cases h)]

theorem mkDictC_nm (r : RootMatch) (children : List ChildSeg) :
    lookupD (mkDictC r children) Key.nm =
      r.provider.map (fun p => Val.s p.nm) := by
  unfold mkDictC
  cases r.resourceGroup <;> cases r.provider <;>
    simp [lookupD_append, lookupD_cons, lookupD_nil, optEntry,
      apply_ite (fun d => lookupD d Key.nm),
      lookupD_childGroup_not (show ¬ IsChildGroupKey Key.nm from fun h => h),
      lookupD_childParent_not (show ∀ i, Key.nm ≠ Key.child_parent i from
        fun i h => by cases h)]

theorem mkDictC_children (r : RootMatch) (children : List ChildSeg) :
    lookupD (mkDictC r children) Key.children =
      r.provider.map (fun p => Val.s p.children) := by
  unfold mkDictC
  cases r.resourceGroup <;> cases r.provider <;>
    simp [lookupD_append, lookupD_cons, lookupD_nil, optEntry,
      apply_ite (fun d => lookupD d Key.children),
      lookupD_childGroup_not (show ¬ IsChildGroupKey Key.children from fun h => h),
      lookupD_childParent_not (show ∀ i, Key.children ≠ Key.child_parent i from
        fun i h => by cases h)]

theorem mkDictC_last_child_num (r : RootMatch) (children : List ChildSeg) :
    lookupD (mkDictC r children) Key.last_child_num =
      if children.length = 0 then none else some (Val.n children.length) := by
  unfold mkDictC
  by_cases hn : children.length = 0 <;>
    cases r.resourceGroup <;> cases r.provider <;>
      simp [lookupD_append, lookupD_cons, lookupD_nil, optEntry, hn,
        lookupD_childGroup_not (show ¬ IsChildGroupKey Key.last_child_num from fun h => h),
        lookupD_childParent_not (show ∀ i, Key.last_child_num ≠ Key.child_parent i from
          fun i h => by cases h)]

theorem mkDictC_child_ty (r : RootMatch) (children : List ChildSeg) (i : Nat)
    (hi : 1 ≤ i) :
    lookupD (mkDictC r children) (Key.child_ty i) =
      (children.get? (i - 1)).map (fun c => Val.s c.ty) := by
  unfold mkDictC
  cases r.resourceGroup <;> cases r.provider <;>
    simp [lookupD_append, lookupD_cons, lookupD_nil, optEntry, hi,
      apply_ite (fun d => lookupD d (Key.child_ty i)),
      lookupD_childGroup_ty 1 i (by omega),
      lookupD_childParent_not (show ∀ j, Key.child_ty i ≠ Key.child_parent j from
        fun j h => by cases h)]

theorem mkDictC_child_nm (r : RootMatch) (children : List ChildSeg) (i : Nat)
    (hi : 1 ≤ i) :
    lookupD (mkDictC r children) (Key.child_nm i) =
      (children.get? (i - 1)).map (fun c => Val.s c.nm) := by
  unfold mkDictC
  cases r.resourceGroup <;> cases r.provider <;>
    simp [lookupD_append, lookupD_cons, lookupD_nil, optEntry, hi,
      apply_ite (fun d => lookupD d (Key.child_nm i)),
      lookupD_childGroup_nm 1 i (by omega),
      lookupD_childParent_not (show ∀ j, Key.child_nm i ≠ Key.child_parent j from
        fun j h => by cases h)]

theorem mkDictC_child_nspace (r : RootMatch) (children : List ChildSeg) (i : Nat)
    (hi : 1 ≤ i) :
    lookupD (mkDictC r children) (Key.child_nspace i) =
      (children.get? (i - 1)).bind (fun c => c.nspace.map Val.s) := by
  unfold mkDictC
  cases r.resourceGroup <;> cases r.provider <;>
    simp [lookupD_append, lookupD_cons, lookupD_nil, optEntry, hi,
      apply_ite (fun d => lookupD d (Key.child_nspace i)),
      lookupD_childGroup_nspace 1 i (by omega),
      lookupD_childParent_not (show ∀ j, Key.child_nspace i ≠ Key.child_parent j from
        fun j h => by cases h)]

theorem mkDictC_child_parent (r : RootMatch) (children : List ChildSeg) (i : Nat)
    (hi : 1 ≤ i) :
    lookupD (mkDictC r children) (Key.child_parent i) =
      r.provider.bind (fun p =>
        ((childParents (p.ty ++ '/' :: p.nm ++ ['/']) children).1.get? (i - 1)).map
          Val.s) := by
  unfold mkDictC
  cases r.resourceGroup <;> cases r.provider <;>
    simp [lookupD_append, lookupD_cons, lookupD_nil, optEntry, hi,
      apply_ite (fun d => lookupD d (Key.child_parent i)),
      lookupD_childGroup_not (show ¬ IsChildGroupKey (Key.child_parent i) from fun h => h),
      lookupD_childParent 1 i]

theorem mkDictC_resource_parent (r : RootMatch) (children : List ChildSeg) :
    lookupD (mkDictC r children) Key.resource_parent =
      r.provider.map (fun p =>
        Val.s (if children.length = 0 then []
               else (childParents (p.ty ++ '/' :: p.nm ++ ['/']) children).2)) := by
  unfold mkDictC
  cases r.resourceGroup <;> cases r.provider <;>
    simp [lookupD_append, lookupD_cons, lookupD_nil, optEntry,
      apply_ite (fun d => lookupD d Key.resource_parent),
      lookupD_childGroup_not (show ¬ IsChildGroupKey Key.resource_parent from fun h => h),
      lookupD_childParent_not (show ∀ i, Key.resource_parent ≠ Key.child_parent i from
        fun i h => by cases h)]

theorem mkDictC_resource_namespace (r : RootMatch) (children : List ChildSeg) :
    lookupD (mkDictC r children) Key.resource_namespace =
      r.provider.map (fun p => Val.s p.nspace) := by
  unfold mkDictC
  cases r.resourceGroup <;> cases r.provider <;>
    simp [lookupD_append, lookupD_cons, lookupD_nil, optEntry,
      apply_ite (fun d => lookupD d Key.resource_namespace),
      lookupD_childGroup_not (show ¬ IsChildGroupKey Key.resource_namespace from fun h => h),
      lookupD_childParent_not (show ∀ i, Key.resource_namespace ≠ Key.child_parent i from
        fun i h => by cases h)]

theorem mkDictC_resource_type (r : RootMatch) (children : List ChildSeg) :
    lookupD (mkDictC r children) Key.resource_type =
      r.provider.map (fun p => Val.s (resTy p children)) := by
  unfold mkDictC
  cases r.resourceGroup <;> cases r.provider <;>
    simp [lookupD_append, lookupD_cons, lookupD_nil, optEntry,
      apply_ite (fun d => lookupD d Key.resource_type),
      lookupD_childGroup_not (show ¬ IsChildGroupKey Key.resource_type from fun h => h),
      lookupD_childParent_not (show ∀ i, Key.resource_type ≠ Key.child_parent i from
        fun i h => by cases h)]

theorem mkDictC_resource_nm (r : RootMatch) (children : List ChildSeg) :
    lookupD (mkDictC r children) Key.resource_nm =
      r.provider.map (fun p => Val.s (resNm p children)) := by
  unfold mkDictC
  cases r.resourceGroup <;> cases r.provider <;>
    simp [lookupD_append, lookupD_cons, lookupD_nil, optEntry,
      apply_ite (fun d => lookupD d Key.resource_nm),
      lookupD_childGroup_not (show ¬ IsChildGroupKey Key.resource_nm from fun h => h),
      lookupD_childParent_not (show ∀ i, Key.resource_nm ≠ Key.child_parent i from
        fun i h => by cases h)]

/-! ## The composer on the parsed mapping -/

theorem valStr_s (v : List Char) : valStr (Val.s v) = v := rfl

theorem childGroupEntries_length_ge (s : Nat) (l : List ChildSeg) :
    2 * l.length ≤ (childGroupEntries s l).length := by
  induction l generalizing s with
  | nil => simp [childGroupEntries]
  | cons c cs ih =>
    unfold childGroupEntries
    simp only [List.length_append, List.length_cons]
    have := ih (s + 1)
    simp
    omega

theorem mkDictC_length_ge (r : RootMatch) (l : List ChildSeg) :
    l.length ≤ (mkDictC r l).length := by
  unfold mkDictC
  simp only [List.length_append]
  have := childGroupEntries_length_ge 1 l
  omega

theorem buildChildren_mkDictC (r : RootMatch) (l : List ChildSeg) :
    ∀ fuel j, l.length - j < fuel →
      buildChildren (mkDictC r l) fuel (j + 1) = childSegs (l.drop j) := by
  intro fuel
  induction fuel with
  | zero => intro j h; omega
  | succ f ih =>
    intro j h
    unfold buildChildren
    rw [show lookupFmt (mkDictC r l) (Key.child_nspace (j + 1)) =
        ((l.get? j).bind (fun c => c.nspace.map Val.s)).map valStr by
      unfold lookupFmt
      rw [mkDictC_child_nspace r l (j + 1) (by omega)]
      simp]
    rw [show lookupFmt (mkDictC r l) (Key.child_ty (j + 1)) =
        ((l.get? j).map (fun c => Val.s c.ty)).map valStr by
      unfold lookupFmt
      rw [mkDictC_child_ty r l (j + 1) (by omega)]
      simp]
    rw [show lookupFmt (mkDictC r l) (Key.child_nm (j + 1)) =
        ((l.get? j).map (fun c => Val.s c.nm)).map valStr by
      unfold lookupFmt
      rw [mkDictC_child_nm r l (j + 1) (by omega)]
      simp]
    by_cases hj : j < l.length
    · rw [List.get?_eq_get hj]
      rw [List.drop_eq_getElem_cons hj]
      rw [ih (j + 1) (by omega)]
      cases hcn : l[j].nspace with
      | some ns => simp [childSegs, List.get_eq_getElem, hcn, valStr]
      | none => simp [childSegs, List.get_eq_getElem, hcn, valStr]
    · rw [List.get?_eq_none.mpr (by omega)]
      rw [List.drop_eq_nil_of_le (by omega)]
      simp [childSegs]

theorem chars_rg_cons : chars "/resourceGroups/" = '/' :: chars "resourceGroups/" := rfl

theorem chars_prov_cons : chars "/providers/" = '/' :: chars "providers/" := rfl

theorem childSegs_flatten (l : List ChildSeg) :
    ((childSegs l).map (fun s => '/' :: s)).flatten = childrenCanon l := by
  induction l with
  | nil => rfl
  | cons c cs ih =>
    cases hcn : c.nspace <;>
      simp [childSegs, childrenCanon, childCanon, hcn, ih, chars_prov_cons,
        List.append_assoc]

theorem resource_id_mkDict (r : RootMatch) :
    resource_id (mkDict r) = some (canonRoot r) := by
  unfold mkDict resource_id
  have hsub : ∀ l, lookupFmt (mkDictC r l) Key.subscription = some r.subscription := by
    intro l
    unfold lookupFmt
    rw [mkDictC_subscription]
    rfl
  have hrg : ∀ l, lookupFmt (mkDictC r l) Key.resource_group =
      r.resourceGroup := by
    intro l
    unfold lookupFmt
    rw [mkDictC_resource_group]
    cases r.resourceGroup <;> rfl
  have hns : ∀ l, lookupFmt (mkDictC r l) Key.nspace =
      r.provider.map (fun p => p.nspace) := by
    intro l
    unfold lookupFmt
    rw [mkDictC_nspace]
    cases r.provider <;> rfl
  have hty : ∀ l, lookupFmt (mkDictC r l) Key.ty =
      r.provider.map (fun p => p.ty) := by
    intro l
    unfold lookupFmt
    rw [mkDictC_ty]
    cases r.provider <;> rfl
  have hnm : ∀ l, lookupFmt (mkDictC r l) Key.nm =
      r.provider.map (fun p => p.nm) := by
    intro l
    unfold lookupFmt
    rw [mkDictC_nm]
    cases r.provider <;> rfl
  cases hpv : r.provider with
  | none =>
    simp only [hsub, hrg, hns, hpv, Option.map_none']
    cases hrg2 : r.resourceGroup with
    | none =>
      simp [joinSlash, canonRoot, canonize, rawRoot, hpv, hrg2]
    | some g =>
      simp [joinSlash, canonRoot, canonize, rawRoot, hpv, hrg2, chars_rg_cons]
  | some p =>
    simp only [hsub, hrg, hns, hty, hnm, hpv, Option.map_some']
    have hb := buildChildren_mkDictC r (findChildren p.children)
      ((mkDictC r (findChildren p.children)).length + 1) 0
      (by have := mkDictC_length_ge r (findChildren p.children); omega)
    simp only [Nat.zero_add, List.drop_zero] at hb
    rw [hb]
    cases hrg2 : r.resourceGroup with
    | none =>
      simp [joinSlash, canonRoot, canonize, rawRoot, hpv, hrg2, chars_rg_cons,
        chars_prov_cons, childSegs_flatten, List.append_assoc]
    | some g =>
      simp [joinSlash, canonRoot, canonize, rawRoot, hpv, hrg2, chars_rg_cons,
        chars_prov_cons, childSegs_flatten, List.append_assoc]

/-! ## Parsing and the canonical rebuild -/

theorem matchRoot_nil : matchRoot [] = none := rfl

theorem parse_of_match {x : List Char} {r : RootMatch}
    (h : matchRoot x = some r) : parse_resource_id x = mkDict r := by
  cases x with
  | nil => rw [matchRoot_nil] at h; exact absurd h (by simp)
  | cons a t =>
    unfold parse_resource_id
    rw [h]

theorem childCanon_head (c : ChildSeg) : ∃ t, childCanon c = '/' :: t := by
  cases hcn : c.nspace with
  | none => exact ⟨c.ty ++ '/' :: c.nm, by simp [childCanon, hcn]⟩
  | some ns =>
    refine ⟨chars "providers/" ++ ns ++ ('/' :: (c.ty ++ '/' :: c.nm)), ?_⟩
    simp [childCanon, hcn, chars_prov_cons, List.append_assoc]

theorem childrenCanon_shape (l : List ChildSeg) :
    childrenCanon l = [] ∨ ∃ t, childrenCanon l = '/' :: t := by
  cases l with
  | nil => left; rfl
  | cons c cs =>
    right
    obtain ⟨t, ht⟩ := childCanon_head c
    exact ⟨t ++ childrenCanon cs, by
      show childCanon c ++ childrenCanon cs = _
      rw [ht]
      rfl⟩

theorem wfRoot_canonize {r : RootMatch} (h : WfRoot r) : WfRoot (canonize r) := by
  obtain ⟨hsub, hsubsl, hg, hp⟩ := h
  refine ⟨hsub, hsubsl, hg, ?_⟩
  intro p' hp'
  unfold canonize at hp'
  simp only [Option.mem_def, Option.map_eq_some'] at hp'
  obtain ⟨p, hpv, hpe⟩ := hp'
  obtain ⟨h1, h2, h3, h4, h5, h6, h7⟩ := hp p hpv
  subst hpe
  refine ⟨h1, h2, h3, h4, h5, ?_, ?_⟩
  · exact findChildren_noNl p.children.length p.children le_rfl h6
  · exact childrenCanon_shape _

/-! ## Erasing the raw children key -/

theorem eraseKey_append (a b : Dict) (k : Key) :
    eraseKey (a ++ b) k = eraseKey a k ++ eraseKey b k := by
  induction a with
  | nil => rfl
  | cons kv t ih =>
    obtain ⟨k', v⟩ := kv
    simp only [List.cons_append, eraseKey]
    split <;> simp [ih]

theorem eraseKey_not_mem {d : Dict} {k : Key} (h : ∀ kv ∈ d, kv.1 ≠ k) :
    eraseKey d k = d := by
  induction d with
  | nil => rfl
  | cons kv t ih =>
    obtain ⟨k', v⟩ := kv
    unfold eraseKey
    rw [if_neg (h (k', v) (List.mem_cons_self _ _))]
    rw [ih fun kv hkv => h kv (List.mem_cons_of_mem _ hkv)]

theorem resTy_children_irrel (p : ProvPart) (x : List Char) (l : List ChildSeg) :
    resTy ⟨p.nspace, p.ty, p.nm, x⟩ l = resTy p l := rfl

theorem resNm_children_irrel (p : ProvPart) (x : List Char) (l : List ChildSeg) :
    resNm ⟨p.nspace, p.ty, p.nm, x⟩ l = resNm p l := rfl

theorem eraseKey_mkDictC_canonize (r : RootMatch) (l : List ChildSeg) :
    eraseKey (mkDictC (canonize r) l) Key.children =
      eraseKey (mkDictC r l) Key.children := by
  unfold mkDictC canonize
  cases hpv : r.provider <;> cases hrg : r.resourceGroup <;>
    simp [eraseKey_append, eraseKey,
      eraseKey_not_mem (show ∀ kv ∈ childGroupEntries 1 l, kv.1 ≠ Key.children from
        fun kv hkv hk => (hk ▸ childGroupEntries_keys kv hkv : IsChildGroupKey Key.children)),
      apply_ite (fun d => eraseKey d Key.children),
      resTy_children_irrel, resNm_children_irrel]

theorem lstr_canonRoot {r : RootMatch}
    (hcov : ∀ p ∈ r.provider, cover p.children = true) :
    lstr (canonRoot r) = lstr (rawRoot r) := by
  unfold canonRoot canonize rawRoot
  cases hpv : r.provider with
  | none => rfl
  | some p =>
    have hc : lstr (childrenCanon (findChildren p.children)) = lstr p.children :=
      (cover_sound p.children.length p.children le_rfl (hcov p hpv)).symm
    simp [lstr_append, lstr_cons, hc]

/-! ## The parent accumulator in closed form -/

theorem childParents_fst_length (l : List ChildSeg) :
    ∀ acc, ((childParents acc l).1).length = l.length := by
  induction l with
  | nil => intro acc; rfl
  | cons c cs ih =>
    intro acc
    cases cs with
    | nil => rfl
    | cons c' cs' =>
      unfold childParents
      simp only [List.length_cons]
      rw [ih]
      simp

theorem childParents_fst_get? (l : List ChildSeg) :
    ∀ acc j, j < l.length →
      ((childParents acc l).1).get? j =
        some (acc ++ ((l.take j).map (fun c => provSeg c.nspace ++ tnSeg c)).flatten
          ++ provSeg ((l.get? j).bind (fun c => c.nspace))) := by
  induction l with
  | nil => intro acc j hj; simp at hj
  | cons c cs ih =>
    intro acc j hj
    cases cs with
    | nil =>
      have hj0 : j = 0 := by simp at hj; omega
      subst hj0
      simp [childParents]
    | cons c' cs' =>
      cases j with
      | zero => simp [childParents]
      | succ j' =>
        unfold childParents
        simp only [List.get?_cons_succ, List.take_succ_cons, List.map_cons,
          List.flatten_cons]
        rw [ih _ j' (by simp at hj ⊢; omega)]
        simp [List.append_assoc]

theorem childParents_snd (l : List ChildSeg) :
    ∀ acc, l ≠ [] →
      (childParents acc l).2 =
        acc ++ ((l.take (l.length - 1)).map (fun c => provSeg c.nspace ++ tnSeg c)).flatten
          ++ provSeg ((l.get? (l.length - 1)).bind (fun c => c.nspace)) := by
  induction l with
  | nil => intro acc h; exact absurd rfl h
  | cons c cs ih =>
    intro acc _
    cases cs with
    | nil => simp [childParents]
    | cons c' cs' =>
      unfold childParents
      simp only [List.length_cons]
      rw [ih _ (by simp)]
      have h1 : (c :: c' :: cs').length - 1 = (c' :: cs').length := by simp
      simp only [List.length_cons] at h1 ⊢
      rw [show c' :: cs' = c' :: cs' from rfl]
      simp [List.take_succ_cons, List.append_assoc]

theorem mem_of_getLast? {l : List ChildSeg} {x : ChildSeg}
    (h : l.getLast? = some x) : x ∈ l := by
  have hx : x ∈ l.getLast? := by rw [h]; rfl
  obtain ⟨hne, hx'⟩ := List.mem_getLast?_eq_getLast hx
  rw [hx']
  exact List.getLast_mem hne

/-! ## The claims -/

/-- C6: `parse_resource_id` is total: the empty string parses to the empty
mapping, and every non-empty input the root pattern rejects parses to the
single-entry fallback mapping `{"name": rid}`. -/
theorem parse_total_fallback :
    parse_resource_id [] = [] ∧
    ∀ x : List Char, x ≠ [] → matchRoot x = none →
      parse_resource_id x = [(Key.nm, Val.s x)] := by
  refine ⟨rfl, ?_⟩
  intro x hne hm
  cases x with
  | nil => exact absurd rfl hne
  | cons a t =>
    unfold parse_resource_id
    rw [hm]

/-- Witness for C6 at the concrete input `"not-an-id"`. -/
theorem parse_total_fallback_witness :
    chars "not-an-id" ≠ [] ∧ matchRoot (chars "not-an-id") = none ∧
      parse_resource_id (chars "not-an-id") =
        [(Key.nm, Val.s (chars "not-an-id"))] :=
  ⟨by decide, by decide,
    parse_total_fallback.2 (chars "not-an-id") (by decide) (by decide)⟩

/-- C10: when the root pattern matches a prefix, the unconsumed trailing
text plays no part in the result (the parse of the whole input is the dict
of the captured groups with the rest dropped), and no `name` fallback
occurs; in particular `/subscriptions/S/junk` parses to exactly
`{subscription: "S"}`. -/
theorem trailing_junk_discarded :
    (∀ (x : List Char) (r : RootMatch), matchRoot x = some r →
      parse_resource_id x = mkDict { r with rest := [] }) ∧
    parse_resource_id (chars "/subscriptions/S/junk") =
      [(Key.subscription, Val.s (chars "S"))] := by
  constructor
  · intro x r h
    rw [parse_of_match h]
    rfl
  · decide

/-- Witness for C10 at the concrete input `/subscriptions/S/junk`. -/
theorem trailing_junk_discarded_witness :
    matchRoot (chars "/subscriptions/S/junk") =
      some ⟨chars "S", none, none, chars "/junk"⟩ ∧
    parse_resource_id (chars "/subscriptions/S/junk") =
      mkDict ⟨chars "S", none, none, []⟩ :=
  ⟨by decide,
    trailing_junk_discarded.1 (chars "/subscriptions/S/junk")
      ⟨chars "S", none, none, chars "/junk"⟩ (by decide)⟩

/-- C2 (amended): with zero child matches, `resource_parent` is present
with the empty string as value whenever the root `name` was captured (the
accumulator never receives the `{type}/{name}/` base in that case), and is
absent when `name` was not captured. -/
theorem resource_parent_no_children :
    ∀ (x : List Char) (r : RootMatch), matchRoot x = some r →
      (∀ p ∈ r.provider, findChildren p.children = []) →
      (r.provider.isSome = true →
        lookupD (parse_resource_id x) Key.resource_parent = some (Val.s [])) ∧
      (r.provider = none →
        lookupD (parse_resource_id x) Key.resource_parent = none) := by
  intro x r hm hnc
  rw [parse_of_match hm]
  unfold mkDict
  cases hpv : r.provider with
  | none =>
    rw [mkDictC_resource_parent, hpv]
    exact ⟨fun h => by simp at h, fun _ => rfl⟩
  | some p =>
    have hl : findChildren p.children = [] := hnc p (by rw [hpv]; rfl)
    dsimp only
    rw [hl, mkDictC_resource_parent, hpv]
    refine ⟨fun _ => ?_, fun h => by cases h⟩
    simp

/-- Witness for C2 at `/subscriptions/S/providers/NS/T/N`. -/
theorem resource_parent_no_children_witness :
    matchRoot (chars "/subscriptions/S/providers/NS/T/N") =
      some ⟨chars "S", none, some ⟨chars "NS", chars "T", chars "N", []⟩, []⟩ ∧
    lookupD (parse_resource_id (chars "/subscriptions/S/providers/NS/T/N"))
      Key.resource_parent = some (Val.s []) :=
  ⟨by decide,
    (resource_parent_no_children (chars "/subscriptions/S/providers/NS/T/N")
      ⟨chars "S", none, some ⟨chars "NS", chars "T", chars "N", []⟩, []⟩
      (by decide) (by intro p hp; cases hp; rfl)).1 rfl⟩

/-- Counterexample to C2 as stated: with zero children and `name` present,
the parsed `resource_parent` is the empty string, not `"{type}/{name}/"`
(here `"T/N/"`). -/
theorem resource_parent_claim_counterexample :
    lookupD (parse_resource_id (chars "/subscriptions/S/providers/NS/T/N"))
      Key.resource_parent = some (Val.s []) ∧
    some (Val.s ([] : List Char)) ≠ some (Val.s (chars "T/N/")) := by
  exact ⟨by decide, by decide⟩

/-- C5 (amended): `resource_namespace` is the root namespace
unconditionally (absent exactly when the providers group is absent);
`resource_type` is the last child's type when children exist and that type
is non-empty (python's `or` falls back to the root type for an empty child
type), else the root type; `resource_name` is the last child's name when
children exist (child names are never empty), else the root name. -/
theorem derived_fields :
    ∀ (x : List Char) (r : RootMatch), matchRoot x = some r →
      lookupD (parse_resource_id x) Key.resource_namespace =
        r.provider.map (fun p => Val.s p.nspace) ∧
      (∀ p ∈ r.provider, ∀ c, (findChildren p.children).getLast? = some c →
        lookupD (parse_resource_id x) Key.resource_type =
          some (Val.s (if c.ty = [] then p.ty else c.ty)) ∧
        lookupD (parse_resource_id x) Key.resource_nm = some (Val.s c.nm)) ∧
      (∀ p ∈ r.provider, findChildren p.children = [] →
        lookupD (parse_resource_id x) Key.resource_type = some (Val.s p.ty) ∧
        lookupD (parse_resource_id x) Key.resource_nm = some (Val.s p.nm)) := by
  intro x r hm
  rw [parse_of_match hm]
  unfold mkDict
  refine ⟨by rw [mkDictC_resource_namespace], ?_, ?_⟩
  · intro p hp c hc
    have hpv : r.provider = some p := hp
    rw [hpv]
    dsimp only
    rw [mkDictC_resource_type, mkDictC_resource_nm, hpv]
    constructor
    · simp [resTy, hc]
    · have hcm : c ∈ findChildren p.children := mem_of_getLast? hc
      have hwf : WfChild c :=
        findChildren_wf p.children.length p.children le_rfl c hcm
      simp [resNm, hc, hwf.2.2.1]
  · intro p hp hl
    have hpv : r.provider = some p := hp
    rw [hpv]
    dsimp only
    rw [hl, mkDictC_resource_type, mkDictC_resource_nm, hpv]
    constructor
    · simp [resTy]
    · simp [resNm]

/-- Witness for C5 at `/subscriptions/S/providers/NS/T/N/CT/CN`. -/
theorem derived_fields_witness :
    matchRoot (chars "/subscriptions/S/providers/NS/T/N/CT/CN") =
      some ⟨chars "S", none,
        some ⟨chars "NS", chars "T", chars "N", chars "/CT/CN"⟩, []⟩ ∧
    lookupD (parse_resource_id (chars "/subscriptions/S/providers/NS/T/N/CT/CN"))
      Key.resource_type = some (Val.s (chars "CT")) := by
  refine ⟨by decide, ?_⟩
  have h := ((derived_fields (chars "/subscriptions/S/providers/NS/T/N/CT/CN")
    ⟨chars "S", none, some ⟨chars "NS", chars "T", chars "N", chars "/CT/CN"⟩, []⟩
    (by decide)).2.1
    ⟨chars "NS", chars "T", chars "N", chars "/CT/CN"⟩ rfl
    ⟨none, chars "CT", chars "CN"⟩ (by decide)).1
  rw [h]
  decide

/-- Counterexample to C5 as stated: for
`/subscriptions/S/providers/NS/T/N//X` a child exists whose type is the
empty string, yet `resource_type` is the root type `"T"`, not
`child_type_1 = ""`. -/
theorem derived_fields_claim_counterexample :
    lookupD (parse_resource_id (chars "/subscriptions/S/providers/NS/T/N//X"))
      Key.last_child_num = some (Val.n 1) ∧
    lookupD (parse_resource_id (chars "/subscriptions/S/providers/NS/T/N//X"))
      (Key.child_ty 1) = some (Val.s []) ∧
    lookupD (parse_resource_id (chars "/subscriptions/S/providers/NS/T/N//X"))
      Key.resource_type = some (Val.s (chars "T")) ∧
    (Val.s (chars "T") : Val) ≠ Val.s [] := by
  exact ⟨by decide, by decide, by decide, by decide⟩

/-- C4: each recorded `child_parent_i` follows the record-then-extend
order: it is the accumulator after the level's own optional
`providers/{child_namespace_i}/` segment but before its
`{child_type_i}/{child_name_i}/` segment, i.e. the spec's closed form
`specChildParent`; the final level's value is also `resource_parent`; and
the two-level example gives `child_parent_1 = "T/N/"`,
`child_parent_2 = resource_parent = "T/N/C1T/C1N/"`. -/
theorem child_parent_record_then_extend :
    (∀ (x : List Char) (r : RootMatch) (p : ProvPart), matchRoot x = some r →
      r.provider = some p → findChildren p.children ≠ [] →
      (∀ i, 1 ≤ i → i ≤ (findChildren p.children).length →
        lookupD (parse_resource_id x) (Key.child_parent i) =
          some (Val.s (specChildParent p (findChildren p.children) i))) ∧
      lookupD (parse_resource_id x) Key.resource_parent =
        some (Val.s (specChildParent p (findChildren p.children)
          (findChildren p.children).length))) ∧
    (lookupD (parse_resource_id
        (chars "/subscriptions/S/providers/NS/T/N/C1T/C1N/C2T/C2N"))
        (Key.child_parent 1) = some (Val.s (chars "T/N/")) ∧
     lookupD (parse_resource_id
        (chars "/subscriptions/S/providers/NS/T/N/C1T/C1N/C2T/C2N"))
        (Key.child_parent 2) = some (Val.s (chars "T/N/C1T/C1N/")) ∧
     lookupD (parse_resource_id
        (chars "/subscriptions/S/providers/NS/T/N/C1T/C1N/C2T/C2N"))
        Key.resource_parent = some (Val.s (chars "T/N/C1T/C1N/"))) := by
  constructor
  · intro x r p hm hpv hne
    rw [parse_of_match hm]
    unfold mkDict
    rw [hpv]
    constructor
    · intro i h1 h2
      rw [mkDictC_child_parent r _ i h1, hpv]
      rw [Option.some_bind]
      have hj : i - 1 < (findChildren p.children).length := by omega
      rw [childParents_fst_get? _ _ (i - 1) hj]
      rw [Option.map_some']
      unfold specChildParent
      simp [List.append_assoc]
    · rw [mkDictC_resource_parent, hpv]
      dsimp only [Option.map_some']
      rw [if_neg (by simp [hne]), childParents_snd _ _ hne]
      unfold specChildParent
      simp [List.append_assoc]
  · exact ⟨by decide, by decide, by decide⟩

/-- Witness for C4: the general statement applied at the two-level
example. -/
theorem child_parent_record_then_extend_witness :
    lookupD (parse_resource_id
        (chars "/subscriptions/S/providers/NS/T/N/C1T/C1N/C2T/C2N"))
      (Key.child_parent 1) =
      some (Val.s (specChildParent
        ⟨chars "NS", chars "T", chars "N", chars "/C1T/C1N/C2T/C2N"⟩
        (findChildren (chars "/C1T/C1N/C2T/C2N")) 1)) :=
  ((child_parent_record_then_extend.1
    (chars "/subscriptions/S/providers/NS/T/N/C1T/C1N/C2T/C2N")
    ⟨chars "S", none,
      some ⟨chars "NS", chars "T", chars "N", chars "/C1T/C1N/C2T/C2N"⟩, []⟩
    ⟨chars "NS", chars "T", chars "N", chars "/C1T/C1N/C2T/C2N"⟩
    (by decide) rfl (by decide)).1 1 (by decide) (by decide))

/-- C3: composing fails exactly when `subscription` is absent; when
`subscription` is present, a missing `namespace` truncates the result after
the subscription and optional resource-group segments, and a missing
`type`/`name` (with `namespace` present) truncates it after the dangling
`providers/{namespace}` segment — partial output, no error. -/
theorem resource_id_subscription_required :
    ∀ d : Dict,
      ((∃ s, resource_id d = some s) ↔ (lookupD d Key.subscription).isSome = true) ∧
      (∀ s, lookupFmt d Key.subscription = some s →
        lookupD d Key.nspace = none →
        resource_id d = some (chars "/subscriptions/" ++ s ++
          (match lookupFmt d Key.resource_group with
           | some g => chars "/resourceGroups/" ++ g
           | none => []))) ∧
      (∀ s ns, lookupFmt d Key.subscription = some s →
        lookupFmt d Key.nspace = some ns →
        (lookupD d Key.ty = none ∨ lookupD d Key.nm = none) →
        resource_id d = some (chars "/subscriptions/" ++ s ++
          (match lookupFmt d Key.resource_group with
           | some g => chars "/resourceGroups/" ++ g
           | none => []) ++ (chars "/providers/" ++ ns))) := by
  intro d
  refine ⟨?_, ?_, ?_⟩
  · unfold resource_id lookupFmt
    cases h : lookupD d Key.subscription with
    | none => simp
    | some v => simp
  · intro s hs hns
    unfold resource_id
    rw [hs]
    have hns' : lookupFmt d Key.nspace = none := by
      unfold lookupFmt
      rw [hns]
      rfl
    rw [hns']
    cases hrg : lookupFmt d Key.resource_group with
    | none => simp [joinSlash]
    | some g => simp [joinSlash, chars_rg_cons, List.append_assoc]
  · intro s ns hs hns hty
    unfold resource_id
    rw [hs, hns]
    have hty' : (match lookupFmt d Key.ty, lookupFmt d Key.nm with
        | some t, some n => (t ++ '/' :: n) :: buildChildren d (d.length + 1) 1
        | _, _ => []) = ([] : List (List Char)) := by
      rcases hty with h | h
      · have : lookupFmt d Key.ty = none := by unfold lookupFmt; rw [h]; rfl
        rw [this]
      · have : lookupFmt d Key.nm = none := by unfold lookupFmt; rw [h]; rfl
        rw [this]
        cases lookupFmt d Key.ty <;> rfl
    rw [hty']
    cases hrg : lookupFmt d Key.resource_group with
    | none => simp [joinSlash, chars_prov_cons, List.append_assoc]
    | some g => simp [joinSlash, chars_rg_cons, chars_prov_cons, List.append_assoc]

/-- Witness for C3: the spec's truncation example
`build({subscription: "S", resource_group: "G"}) =
"/subscriptions/S/resourceGroups/G"`, and the error case of a mapping
without `subscription`. -/
theorem resource_id_subscription_required_witness :
    resource_id [(Key.subscription, Val.s (chars "S")),
        (Key.resource_group, Val.s (chars "G"))] =
      some (chars "/subscriptions/S/resourceGroups/G") ∧
    resource_id [(Key.resource_group, Val.s (chars "G"))] = none := by
  constructor
  · have h := (resource_id_subscription_required
      [(Key.subscription, Val.s (chars "S")),
        (Key.resource_group, Val.s (chars "G"))]).2.1 (chars "S")
      (by decide) (by decide)
    rw [h]
    decide
  · decide

/-- C7: the validator returns true exactly when the input is non-empty and
its parse rebuilds to the same string case-insensitively; a propagated
lookup failure (missing `subscription`, i.e. a fallback parse) yields
false rather than an error; and the `exception_type` mode raises exactly
when the boolean mode returns false. -/
theorem is_valid_resource_id_spec :
    ∀ rid : List Char,
      (is_valid_resource_id rid = true ↔
        rid ≠ [] ∧ ∃ y, resource_id (parse_resource_id rid) = some y ∧
          lstr y = lstr rid) ∧
      (resource_id (parse_resource_id rid) = none →
        is_valid_resource_id rid = false) ∧
      (is_valid_resource_id_exc rid =
        if is_valid_resource_id rid then Except.ok true else Except.error ()) := by
  intro rid
  refine ⟨?_, ?_, ?_⟩
  · cases rid with
    | nil => simp [is_valid_resource_id]
    | cons a t =>
      unfold is_valid_resource_id
      cases hb : resource_id (parse_resource_id (a :: t)) with
      | none => simp
      | some y =>
        simp only [decide_eq_true_eq]
        constructor
        · intro h
          exact ⟨by simp, y, rfl, h⟩
        · rintro ⟨-, y', hy', h⟩
          rw [Option.some.injEq] at hy'
          rw [hy']
          exact h
  · intro h
    cases rid with
    | nil => rfl
    | cons a t =>
      unfold is_valid_resource_id
      rw [h]
  · cases rid with
    | nil => rfl
    | cons a t =>
      unfold is_valid_resource_id is_valid_resource_id_exc
      cases hb : resource_id (parse_resource_id (a :: t)) with
      | none => rfl
      | some y =>
        by_cases h : lstr y = lstr (a :: t)
        · simp [h]
        · simp [h]

/-- Witness for C7: a valid and an invalid concrete id. -/
theorem is_valid_resource_id_spec_witness :
    is_valid_resource_id (chars "/subscriptions/S") = true ∧
    resource_id (parse_resource_id (chars "junk")) = none ∧
    is_valid_resource_id (chars "junk") = false := by
  refine ⟨by decide, by decide, ?_⟩
  exact (is_valid_resource_id_spec (chars "junk")).2.1 (by decide)

/-- C1 (amended): the round trip holds for every input that the patterns
consume in full — the root match leaves no unconsumed rest and the child
matches cover the whole `children` capture contiguously: rebuilding the
parse of such an input returns it unchanged up to ASCII case. -/
theorem roundtrip_of_fullMatch :
    ∀ x : List Char, fullMatch x = true →
      ∃ y, resource_id (parse_resource_id x) = some y ∧ lstr y = lstr x := by
  intro x h
  unfold fullMatch at h
  cases hm : matchRoot x with
  | none => rw [hm] at h; exact absurd h (by simp)
  | some r =>
    rw [hm] at h
    rw [Bool.and_eq_true] at h
    obtain ⟨h1, h2⟩ := h
    have hrest : r.rest = [] := of_decide_eq_true h1
    have hcov : ∀ p ∈ r.provider, cover p.children = true := by
      intro p hp
      cases hpv : r.provider with
      | none => rw [hpv] at hp; cases hp
      | some p' =>
        rw [hpv] at h2 hp
        cases hp
        exact h2
    refine ⟨canonRoot r, ?_, ?_⟩
    · rw [parse_of_match hm, resource_id_mkDict]
    · obtain ⟨hx, -⟩ := matchRoot_sound hm
      rw [lstr_canonRoot hcov, hx, hrest]
      simp [lstr_nil]

/-- Witness for C1 at a nested concrete identifier. -/
theorem roundtrip_of_fullMatch_witness :
    fullMatch
      (chars "/subscriptions/S/resourceGroups/G/providers/NS/T/N/providers/CNS/CT/CN")
      = true ∧
    ∃ y, resource_id (parse_resource_id
        (chars "/subscriptions/S/resourceGroups/G/providers/NS/T/N/providers/CNS/CT/CN"))
      = some y ∧
      lstr y = lstr
        (chars "/subscriptions/S/resourceGroups/G/providers/NS/T/N/providers/CNS/CT/CN") :=
  ⟨by decide, roundtrip_of_fullMatch _ (by decide)⟩

/-- Counterexample to C1 as stated: `/subscriptions/S/junk` matches the
root pattern (python `re.match` is a prefix match), yet rebuilding its
parse gives `/subscriptions/S`, which differs from the input even
case-insensitively. -/
theorem roundtrip_claim_counterexample :
    (matchRoot (chars "/subscriptions/S/junk")).isSome = true ∧
    resource_id (parse_resource_id (chars "/subscriptions/S/junk")) =
      some (chars "/subscriptions/S") ∧
    lstr (chars "/subscriptions/S") ≠ lstr (chars "/subscriptions/S/junk") := by
  exact ⟨by decide, by decide, by decide⟩

/-- C8 (amended): for every fully matched input, parsing the rebuilt
identifier reproduces the original parse on every key except the raw
`children` capture, which stores the original text verbatim on one side
and the canonically-cased rebuilt text on the other: the two mappings are
equal once that key is dropped. -/
theorem parse_build_parse :
    ∀ x : List Char, fullMatch x = true →
      ∃ y, resource_id (parse_resource_id x) = some y ∧
        eraseKey (parse_resource_id y) Key.children =
          eraseKey (parse_resource_id x) Key.children := by
  intro x h
  unfold fullMatch at h
  cases hm : matchRoot x with
  | none => rw [hm] at h; exact absurd h (by simp)
  | some r =>
    rw [hm] at h
    rw [Bool.and_eq_true] at h
    obtain ⟨h1, h2⟩ := h
    have hcov : ∀ p ∈ r.provider, cover p.children = true := by
      intro p hp
      cases hpv : r.provider with
      | none => rw [hpv] at hp; cases hp
      | some p' =>
        rw [hpv] at h2 hp
        cases hp
        exact h2
    have hwf := (matchRoot_sound hm).2
    have hcanon : matchRoot (canonRoot r) = some (canonize r) :=
      matchRoot_canon (wfRoot_canonize hwf) rfl
    refine ⟨canonRoot r, by rw [parse_of_match hm, resource_id_mkDict], ?_⟩
    rw [parse_of_match hcanon, parse_of_match hm]
    unfold mkDict
    cases hpv : r.provider with
    | none =>
      have hcp : (canonize r).provider = none := by
        unfold canonize
        rw [hpv]
        rfl
      rw [hcp]
      show eraseKey (mkDictC (canonize r) []) Key.children = _
      rw [eraseKey_mkDictC_canonize]
    | some p =>
      have hcp : (canonize r).provider =
          some { p with children := childrenCanon (findChildren p.children) } := by
        unfold canonize
        rw [hpv]
        rfl
      rw [hcp]
      show eraseKey (mkDictC (canonize r)
          (findChildren (childrenCanon (findChildren p.children)))) Key.children = _
      rw [cover_reparse p.children.length p.children le_rfl (hcov p (by rw [hpv]; rfl))]
      rw [eraseKey_mkDictC_canonize]

/-- Witness for C8 at a nested concrete identifier. -/
theorem parse_build_parse_witness :
    fullMatch (chars "/subscriptions/S/providers/NS/T/N/CT/CN") = true ∧
    ∃ y, resource_id (parse_resource_id
        (chars "/subscriptions/S/providers/NS/T/N/CT/CN")) = some y ∧
      eraseKey (parse_resource_id y) Key.children =
        eraseKey (parse_resource_id
          (chars "/subscriptions/S/providers/NS/T/N/CT/CN")) Key.children :=
  ⟨by decide, parse_build_parse _ (by decide)⟩

/-- Counterexample to C8 as stated: the identifier
`/subscriptions/S/providers/NS/T/N/PROVIDERS/CNS/CT/CN` is well formed
(it round-trips case-insensitively, as `is_valid_resource_id` certifies),
yet `parse(build(parse(x)))` differs from `parse(x)`: the retained raw
`children` capture is `/PROVIDERS/CNS/CT/CN` on one side and the rebuilt
`/providers/CNS/CT/CN` on the other. -/
theorem parse_build_parse_counterexample :
    is_valid_resource_id
      (chars "/subscriptions/S/providers/NS/T/N/PROVIDERS/CNS/CT/CN") = true ∧
    resource_id (parse_resource_id
        (chars "/subscriptions/S/providers/NS/T/N/PROVIDERS/CNS/CT/CN")) =
      some (chars "/subscriptions/S/providers/NS/T/N/providers/CNS/CT/CN") ∧
    parse_resource_id (chars "/subscriptions/S/providers/NS/T/N/providers/CNS/CT/CN") ≠
      parse_resource_id (chars "/subscriptions/S/providers/NS/T/N/PROVIDERS/CNS/CT/CN") := by
  exact ⟨by decide, by decide, by decide⟩

/-- C9 (amended): a name is accepted exactly when it is 1 to 260 characters
none of which is in `<>%&:?/`, or when it is such a string followed by one
final newline (python's `$` also matches just before a newline that ends
the string, so a name of up to 261 characters whose last character is a
newline passes); the `exception_type` mode raises exactly on rejection. -/
theorem name_validation :
    ∀ s : List Char,
      (is_valid_resource_name s = true ↔
        ((1 ≤ s.length ∧ s.length ≤ 260 ∧ ∀ c ∈ s, allowedChar c = true) ∨
         (2 ≤ s.length ∧ s.length ≤ 261 ∧ s.getLast? = some '\n' ∧
           ∀ c ∈ s.dropLast, allowedChar c = true))) ∧
      (is_valid_resource_name_exc s =
        if is_valid_resource_name s then Except.ok true else Except.error ()) := by
  intro s
  constructor
  · unfold is_valid_resource_name armNameOk
    rw [List.any_eq_true]
    constructor
    · rintro ⟨k, hkr, hk⟩
      have h261 : k < 261 := List.mem_range.mp hkr
      rw [Bool.and_eq_true, Bool.and_eq_true, Bool.and_eq_true] at hk
      obtain ⟨⟨⟨hk1, hk2⟩, hk3⟩, hk4⟩ := hk
      have h1 : 1 ≤ k := of_decide_eq_true hk1
      have h2 : k ≤ s.length := of_decide_eq_true hk2
      have h3 : ∀ c ∈ s.take k, allowedChar c = true := List.all_eq_true.mp hk3
      unfold dollarAt at hk4
      rcases of_decide_eq_true hk4 with h4 | ⟨h4, h5⟩
      · left
        refine ⟨by omega, by omega, ?_⟩
        intro c hc
        apply h3
        rw [h4, List.take_length]
        exact hc
      · right
        refine ⟨by omega, by omega, h5, ?_⟩
        intro c hc
        apply h3
        rw [List.dropLast_eq_take] at hc
        rwa [show s.length - 1 = k from by omega] at hc
    · intro h
      rcases h with ⟨h1, h2, h3⟩ | ⟨h1, h2, h3, h4⟩
      · refine ⟨s.length, List.mem_range.mpr (by omega), ?_⟩
        rw [Bool.and_eq_true, Bool.and_eq_true, Bool.and_eq_true]
        refine ⟨⟨⟨decide_eq_true (by omega), decide_eq_true (by omega)⟩, ?_⟩, ?_⟩
        · rw [List.take_length]
          exact List.all_eq_true.mpr h3
        · unfold dollarAt
          exact decide_eq_true (Or.inl rfl)
      · refine ⟨s.length - 1, List.mem_range.mpr (by omega), ?_⟩
        rw [Bool.and_eq_true, Bool.and_eq_true, Bool.and_eq_true]
        refine ⟨⟨⟨decide_eq_true (by omega), decide_eq_true (by omega)⟩, ?_⟩, ?_⟩
        · rw [← List.dropLast_eq_take]
          exact List.all_eq_true.mpr h4
        · unfold dollarAt
          exact decide_eq_true (Or.inr ⟨by omega, h3⟩)
  · unfold is_valid_resource_name is_valid_resource_name_exc
    by_cases h : armNameOk s = true
    · simp [h]
    · simp [h]

/-- Counterexample to C9 as stated: the 261-character name consisting of
260 `a`s followed by a newline is accepted by `is_valid_resource_name`,
although its length is outside `[1, 260]` (python's `$` matches just
before a terminal newline, so the regex consumes only the first 260
characters and still reports a match). -/
theorem name_validation_counterexample :
    (List.replicate 260 'a' ++ ['\n'] : List Char).length = 261 ∧
    is_valid_resource_name (List.replicate 260 'a' ++ ['\n']) = true := by
  have hlen : (List.replicate 260 'a' ++ ['\n'] : List Char).length = 261 := by
    rw [List.length_append, List.length_replicate]
    rfl
  refine ⟨hlen, ?_⟩
  unfold is_valid_resource_name armNameOk
  rw [List.any_eq_true]
  refine ⟨260, List.mem_range.mpr (by omega), ?_⟩
  rw [Bool.and_eq_true, Bool.and_eq_true, Bool.and_eq_true]
  refine ⟨⟨⟨decide_eq_true (by omega), decide_eq_true (by rw [hlen]; omega)⟩, ?_⟩, ?_⟩
  · rw [List.take_left' (List.length_replicate 260 'a')]
    rw [List.all_eq_true]
    intro c hc
    rw [List.eq_of_mem_replicate hc]
    decide
  · unfold dollarAt
    exact decide_eq_true (Or.inr ⟨by rw [hlen], List.getLast?_concat _⟩)
